import Mathlib

/-!
Verification of the procedural displacement engine of `BubbleMaker.py`.

The development shallowly embeds the core of the program:

* `pmax`               — the power smooth maximum `_pmax(a, b, k)`;
* `d2` / `contrib`     — the per-cell normalized squared distance and lobe
                         contribution inside `get_voronoi_noise`;
* `windowCells`        — the `range(-3, 4)` triple scan;
* `noiseVal`           — the pure value of `get_voronoi_noise` for a fixed
                         feature-point assignment;
* `genFP` / `getOrCreate` / `get_voronoi_noise` — the deterministic
                         feature-point generator, the `_voronoi_points`
                         cache, and the cache-threading noise function;
* the mesh pipeline    — quantized vertex welding, adjacency construction,
                         the three smoothness-diffusion passes and the
                         displacement application of
                         `BubbleMakerCommandExecuteHandler.notify`.

Machine floats of the source are modelled by exact rationals (for all data
that the program compares or stores) and by real numbers (for the square
roots and sixth roots the program takes); the Mersenne-Twister stream
behind `random.seed` / `random.random` is abstracted by an arbitrary
function `rng : ℕ → ℕ → ℚ` whose draws lie in `[0, 1)`, keyed by the
deterministic 31-bit cell seed that the source computes.
-/

namespace BubbleMaker

/-- Power smooth maximum, from `_pmax(a, b, k)`: both arguments are clamped
to `0` (`max(0.0, a)` in the source) and combined as `(a**k + b**k)**(1.0/k)`. -/
noncomputable def pmax (a b k : ℝ) : ℝ :=
  ((max 0 a) ^ k + (max 0 b) ^ k) ^ (1 / k)

theorem pmax_nonneg (a b k : ℝ) : 0 ≤ pmax a b k :=
  Real.rpow_nonneg
    (add_nonneg (Real.rpow_nonneg (le_max_left 0 a) k)
      (Real.rpow_nonneg (le_max_left 0 b) k)) _

theorem pmax_eq_of_nonneg {a b : ℝ} (ha : 0 ≤ a) (hb : 0 ≤ b) :
    pmax a b 6 = (a ^ (6 : ℕ) + b ^ (6 : ℕ)) ^ ((6 : ℝ)⁻¹) := by
  unfold pmax
  rw [max_eq_right ha, max_eq_right hb, ← Real.rpow_natCast a 6,
    ← Real.rpow_natCast b 6]
  norm_num

theorem pmax_pow_six {a b : ℝ} (ha : 0 ≤ a) (hb : 0 ≤ b) :
    (pmax a b 6) ^ (6 : ℕ) = a ^ (6 : ℕ) + b ^ (6 : ℕ) := by
  rw [pmax_eq_of_nonneg ha hb]
  have h6 : ((6 : ℕ) : ℝ)⁻¹ = (6 : ℝ)⁻¹ := by norm_num
  rw [← h6, Real.rpow_inv_natCast_pow _ (by norm_num)]
  positivity

theorem pmax_zero_right {a : ℝ} (ha : 0 ≤ a) : pmax a 0 6 = a := by
  have h := pmax_eq_of_nonneg ha (le_refl 0)
  rw [h]
  have h6 : ((6 : ℕ) : ℝ)⁻¹ = (6 : ℝ)⁻¹ := by norm_num
  rw [show (0 : ℝ) ^ (6 : ℕ) = 0 by norm_num, add_zero, ← h6,
    Real.pow_rpow_inv_natCast ha (by norm_num)]

theorem pmax_le_pmax {a b a' b' : ℝ} (haa : a ≤ a') (hbb : b ≤ b') :
    pmax a b 6 ≤ pmax a' b' 6 := by
  unfold pmax
  apply Real.rpow_le_rpow
  · exact add_nonneg (Real.rpow_nonneg (le_max_left 0 a) _)
      (Real.rpow_nonneg (le_max_left 0 b) _)
  · exact add_le_add
      (Real.rpow_le_rpow (le_max_left 0 a) (max_le_max le_rfl haa) (by norm_num))
      (Real.rpow_le_rpow (le_max_left 0 b) (max_le_max le_rfl hbb) (by norm_num))
  · norm_num

theorem max_le_pmax {a b : ℝ} (ha : 0 ≤ a) (hb : 0 ≤ b) :
    max a b ≤ pmax a b 6 := by
  have hA : a ≤ pmax a b 6 := by
    have := pmax_le_pmax (le_refl a) hb
    rwa [pmax_zero_right ha] at this
  have hB : b ≤ pmax a b 6 := by
    have h0 : pmax 0 b 6 = b := by
      have hc : pmax 0 b 6 = pmax b 0 6 := by
        unfold pmax; ring_nf
      rw [hc, pmax_zero_right hb]
    have := pmax_le_pmax ha (le_refl b)
    rwa [h0] at this
  exact max_le hA hB

/-- C5: the smooth-maximum combinator with `k = 6` is the identity on a zero
second argument, dominates the true maximum, and is monotone in each argument,
for nonnegative inputs. -/
theorem pmax_properties (a b : ℝ) (ha : 0 ≤ a) (hb : 0 ≤ b) :
    pmax a 0 6 = a ∧ max a b ≤ pmax a b 6 ∧
      ∀ a' b', a ≤ a' → b ≤ b' → pmax a b 6 ≤ pmax a' b' 6 := by
  refine ⟨pmax_zero_right ha, max_le_pmax ha hb, ?_⟩
  intro a' b' haa hbb
  exact pmax_le_pmax haa hbb

/-- Witness for `pmax_properties` at `a = 3`, `b = 2`. -/
theorem pmax_properties_witness :
    pmax 3 0 6 = 3 ∧ max 3 2 ≤ pmax 3 2 6 ∧
      ∀ a' b', (3 : ℝ) ≤ a' → (2 : ℝ) ≤ b' → pmax 3 2 6 ≤ pmax a' b' 6 :=
  pmax_properties 3 2 (by norm_num) (by norm_num)

/-! ## The noise field `get_voronoi_noise` -/

/-- Integer lattice cell `(i, j, k)`. -/
abbrev Cell := ℤ × ℤ × ℤ

/-- A rational 3-vector (exact model of a float triple). -/
abbrev Q3 := ℚ × ℚ × ℚ

/-- One cached bubble feature point `(px, py, pz, h_f, r_f)`. -/
structure FP where
  px : ℚ
  py : ℚ
  pz : ℚ
  hf : ℚ
  rf : ℚ
  deriving DecidableEq

/-- `d2 = ((sx - px)**2 + (sy - py)**2 + (sz - pz)**2) / (r_f**2)`. -/
def d2 (f : FP) (s : Q3) : ℚ :=
  ((s.1 - f.px) ^ 2 + (s.2.1 - f.py) ^ 2 + (s.2.2 - f.pz) ^ 2) / f.rf ^ 2

/-- The lobe value `t * t * h_f` with `t = 1.0 - d2`, as computed inside the
`d2 < 1.0` branch. -/
def contribVal (f : FP) (s : Q3) : ℚ := (1 - d2 f s) ^ 2 * f.hf

/-- The effective contribution of a cell: the lobe value inside the lobe,
`0` outside (outside the branch nothing is merged). -/
def contrib (f : FP) (s : Q3) : ℚ := if d2 f s < 1 then contribVal f s else 0

/-- The scan offsets `range(-3, 4)`. -/
def offsets : List ℤ := [-3, -2, -1, 0, 1, 2, 3]

/-- The triple loop `for i ... for j ... for k ...` around a center cell. -/
def windowCells (c : Cell) : List Cell :=
  offsets.flatMap fun i => offsets.flatMap fun j => offsets.map fun k =>
    (c.1 + i, c.2.1 + j, c.2.2 + k)

/-- `sx, sy, sz = x * scale, y * scale, z * scale`. -/
def scaledPt (p : Q3) (scale : ℚ) : Q3 := (p.1 * scale, p.2.1 * scale, p.2.2 * scale)

/-- `cx, cy, cz = floor(sx), floor(sy), floor(sz)`. -/
def cellOf (p : Q3) (scale : ℚ) : Cell :=
  (⌊p.1 * scale⌋, ⌊p.2.1 * scale⌋, ⌊p.2.2 * scale⌋)

/-- One loop iteration acting on `final_val`: merge the lobe through
`_pmax(final_val, h, 6.0)` when `d2 < 1.0`, otherwise leave it. -/
noncomputable def step (sp : Q3) (a : ℝ) (f : FP) : ℝ :=
  if d2 f sp < 1 then pmax a ((contribVal f sp : ℚ) : ℝ) 6 else a

/-- The value of `get_voronoi_noise(x, y, z, scale, variance)` for a fixed
feature-point assignment `fp` (the cache resolves every cell to `fp cell`). -/
noncomputable def noiseVal (fp : Cell → FP) (p : Q3) (scale : ℚ) : ℝ :=
  (windowCells (cellOf p scale)).foldl
    (fun a w => step (scaledPt p scale) a (fp w)) 0

/-! ## Feature-point generation and the `_voronoi_points` cache -/

/-- `seed = ((cx * 73856093) ^ (cy * 19349663) ^ (cz * 83492791)) % (2**31)`.
Python xors the (possibly negative) products as infinite two's-complement
integers and then reduces `% 2**31`; because xor acts bitwise, this equals
xoring the low 31 bits of each product, which is how it is written here. -/
def seedOf (c : Cell) : ℕ :=
  (((c.1 * 73856093).emod (2 ^ 31)).toNat ^^^
      ((c.2.1 * 19349663).emod (2 ^ 31)).toNat) ^^^
    ((c.2.2 * 83492791).emod (2 ^ 31)).toNat

/-- The five pseudo-random draws made after `random.seed(seed)`, in fixed
order, abstracted by a draw function `rng : seed → draw index → value`:
jitter per axis, then `h_f = 0.9 + uniform(0,1) * variance * 1.5`, then
`r_f = 1.1 + uniform(0,1) * 0.5`. -/
def genFP (rng : ℕ → ℕ → ℚ) (variance : ℚ) (c : Cell) : FP :=
  { px := c.1 + rng (seedOf c) 0
    py := c.2.1 + rng (seedOf c) 1
    pz := c.2.2 + rng (seedOf c) 2
    hf := 9 / 10 + rng (seedOf c) 3 * variance * (3 / 2)
    rf := 11 / 10 + rng (seedOf c) 4 * (1 / 2) }

/-- Every draw of `random.random()` / `random.uniform(0, 1)` lies in `[0, 1)`. -/
def RngValid (rng : ℕ → ℕ → ℚ) : Prop :=
  ∀ s i, 0 ≤ rng s i ∧ rng s i < 1

/-- The `_voronoi_points` dictionary. -/
abbrev Cache := List (Cell × FP)

/-- Dictionary lookup `_voronoi_points[cell]`. -/
def cacheFind (pts : Cache) (c : Cell) : Option FP :=
  (pts.find? fun e => decide (e.1 = c)).map (·.2)

/-- The `if cell not in _voronoi_points: ... generate ...` block followed by
the read `_voronoi_points[cell]`. -/
def getOrCreate (rng : ℕ → ℕ → ℚ) (variance : ℚ) (pts : Cache) (c : Cell) :
    FP × Cache :=
  match cacheFind pts c with
  | some f => (f, pts)
  | none => (genFP rng variance c, (c, genFP rng variance c) :: pts)

/-- `get_voronoi_noise` itself: the triple scan threading the global cache,
returning the accumulated `final_val` and the updated cache.  (The source
also returns a constant `1.0` second component, which every caller discards.) -/
noncomputable def get_voronoi_noise (rng : ℕ → ℕ → ℚ) (pts : Cache)
    (x y z scale variance : ℚ) : ℝ × Cache :=
  (windowCells (cellOf (x, y, z) scale)).foldl
    (fun ac w =>
      let fc := getOrCreate rng variance ac.2 w
      (step (scaledPt (x, y, z) scale) ac.1 fc.1, fc.2))
    (0, pts)

/-- The cache only holds entries the generator would reproduce (true of every
cache reachable from the empty one with a fixed `variance`). -/
def Consistent (rng : ℕ → ℕ → ℚ) (variance : ℚ) (pts : Cache) : Prop :=
  ∀ e ∈ pts, e.2 = genFP rng variance e.1

theorem getOrCreate_fst {rng variance pts c}
    (h : Consistent rng variance pts) :
    (getOrCreate rng variance pts c).1 = genFP rng variance c := by
  unfold getOrCreate
  cases hf : cacheFind pts c with
  | none => rfl
  | some f =>
    simp only
    unfold cacheFind at hf
    rcases Option.map_eq_some'.mp hf with ⟨e, he, rfl⟩
    have hmem := List.mem_of_find?_eq_some he
    have hkey : e.1 = c := by
      have := List.find?_some he
      simpa using this
    rw [h e hmem, hkey]

theorem getOrCreate_consistent {rng variance pts c}
    (h : Consistent rng variance pts) :
    Consistent rng variance (getOrCreate rng variance pts c).2 := by
  unfold getOrCreate
  cases hf : cacheFind pts c with
  | none =>
    intro e he
    rcases List.mem_cons.mp he with rfl | he'
    · rfl
    · exact h e he'
  | some f => exact h

/-- A whole run's query sequence against `get_voronoi_noise`, threading the
cache, collecting the returned scalars. -/
noncomputable def runQueries (rng : ℕ → ℕ → ℚ) (variance : ℚ) (pts : Cache)
    (qs : List (Q3 × ℚ)) : List ℝ × Cache :=
  qs.foldl
    (fun acc q =>
      let r := get_voronoi_noise rng acc.2 q.1.1 q.1.2.1 q.1.2.2 q.2 variance
      (acc.1 ++ [r.1], r.2))
    ([], pts)

theorem foldl_thread_eq (rng : ℕ → ℕ → ℚ) (variance : ℚ) (sp : Q3) :
    ∀ (l : List Cell) (a : ℝ) (pts : Cache), Consistent rng variance pts →
      (l.foldl
          (fun ac w =>
            let fc := getOrCreate rng variance ac.2 w
            (step sp ac.1 fc.1, fc.2)) (a, pts)).1
          = l.foldl (fun x w => step sp x (genFP rng variance w)) a ∧
        Consistent rng variance
          (l.foldl
            (fun ac w =>
              let fc := getOrCreate rng variance ac.2 w
              (step sp ac.1 fc.1, fc.2)) (a, pts)).2 := by
  intro l
  induction l with
  | nil => intro a pts h; exact ⟨rfl, h⟩
  | cons w l ih =>
    intro a pts h
    simp only [List.foldl_cons]
    rw [getOrCreate_fst h]
    exact ih _ _ (getOrCreate_consistent h)

theorem get_voronoi_noise_eq {rng variance} (pts : Cache) (x y z scale : ℚ)
    (h : Consistent rng variance pts) :
    (get_voronoi_noise rng pts x y z scale variance).1
        = noiseVal (genFP rng variance) (x, y, z) scale ∧
      Consistent rng variance (get_voronoi_noise rng pts x y z scale variance).2 :=
  foldl_thread_eq rng variance (scaledPt (x, y, z) scale) _ 0 pts h

theorem foldl_step_nonneg (sp : Q3) (g : Cell → FP) :
    ∀ (l : List Cell) (a : ℝ), 0 ≤ a →
      0 ≤ l.foldl (fun x w => step sp x (g w)) a := by
  intro l
  induction l with
  | nil => intro a ha; exact ha
  | cons w l ih =>
    intro a ha
    simp only [List.foldl_cons]
    apply ih
    unfold step
    split
    · exact pmax_nonneg _ _ _
    · exact ha

theorem foldl_step_skip (sp : Q3) (g : Cell → FP) :
    ∀ (l : List Cell) (a : ℝ), (∀ w ∈ l, ¬ d2 (g w) sp < 1) →
      l.foldl (fun x w => step sp x (g w)) a = a := by
  intro l
  induction l with
  | nil => intro a _; rfl
  | cons w l ih =>
    intro a h
    simp only [List.foldl_cons]
    rw [show step sp a (g w) = a by
      unfold step; rw [if_neg (h w (List.mem_cons_self w l))]]
    exact ih a fun w' hw' => h w' (List.mem_cons_of_mem w hw')

/-- The running `_pmax` fold equals the (1/6)-power of the sum of sixth powers
of the per-cell contributions: `_pmax` is associative on nonnegative inputs in
exactly this sense. -/
theorem foldl_step_eq_sum (sp : Q3) (g : Cell → FP) :
    ∀ (l : List Cell) (a : ℝ), 0 ≤ a → (∀ w ∈ l, 0 ≤ (g w).hf) →
      l.foldl (fun x w => step sp x (g w)) a
        = (a ^ (6 : ℕ) +
            ((l.map fun w => ((contrib (g w) sp : ℚ) : ℝ) ^ (6 : ℕ)).sum))
            ^ ((6 : ℝ)⁻¹) := by
  intro l
  induction l with
  | nil =>
    intro a ha _
    have h6 : ((6 : ℕ) : ℝ)⁻¹ = (6 : ℝ)⁻¹ := by norm_num
    simp only [List.foldl_nil, List.map_nil, List.sum_nil, add_zero]
    rw [← h6, Real.pow_rpow_inv_natCast ha (by norm_num)]
  | cons w l ih =>
    intro a ha hhf
    have hwhf : (0 : ℚ) ≤ (g w).hf := hhf w (List.mem_cons_self w l)
    simp only [List.foldl_cons, List.map_cons, List.sum_cons]
    by_cases hlt : d2 (g w) sp < 1
    · have hcv : (0 : ℚ) ≤ contribVal (g w) sp :=
        mul_nonneg (sq_nonneg _) hwhf
      have hcast : (0 : ℝ) ≤ ((contribVal (g w) sp : ℚ) : ℝ) := by
        exact_mod_cast hcv
      have hstep : step sp a (g w) = pmax a ((contribVal (g w) sp : ℚ) : ℝ) 6 := by
        unfold step; rw [if_pos hlt]
      rw [hstep, ih _ (pmax_nonneg _ _ _) (fun w' hw' => hhf w' (List.mem_cons_of_mem w hw')),
        pmax_pow_six ha hcast]
      have hc : contrib (g w) sp = contribVal (g w) sp := by
        unfold contrib; rw [if_pos hlt]
      rw [hc, add_assoc]
    · have hstep : step sp a (g w) = a := by
        unfold step; rw [if_neg hlt]
      have hc : contrib (g w) sp = 0 := by
        unfold contrib; rw [if_neg hlt]
      rw [hstep, ih _ ha (fun w' hw' => hhf w' (List.mem_cons_of_mem w hw')), hc]
      norm_num

theorem noiseVal_eq_sum {fp : Cell → FP} {p : Q3} {scale : ℚ}
    (hhf : ∀ w ∈ windowCells (cellOf p scale), 0 ≤ (fp w).hf) :
    noiseVal fp p scale
      = (((windowCells (cellOf p scale)).map fun w =>
            ((contrib (fp w) (scaledPt p scale) : ℚ) : ℝ) ^ (6 : ℕ)).sum)
          ^ ((6 : ℝ)⁻¹) := by
  unfold noiseVal
  rw [foldl_step_eq_sum _ fp _ 0 le_rfl hhf]
  norm_num

theorem noiseVal_nonneg (fp : Cell → FP) (p : Q3) (scale : ℚ) :
    0 ≤ noiseVal fp p scale :=
  foldl_step_nonneg _ fp _ 0 le_rfl

theorem noiseVal_eq_zero {fp : Cell → FP} {p : Q3} {scale : ℚ}
    (h : ∀ w ∈ windowCells (cellOf p scale), 1 ≤ d2 (fp w) (scaledPt p scale)) :
    noiseVal fp p scale = 0 :=
  foldl_step_skip _ fp _ 0 fun w hw => not_lt.mpr (h w hw)

/-- Any cell visited by the triple scan is within `±3` of the center cell,
componentwise. -/
theorem windowCells_mem_bounds {w c : Cell} (hw : w ∈ windowCells c) :
    (c.1 - 3 ≤ w.1 ∧ w.1 ≤ c.1 + 3) ∧
      (c.2.1 - 3 ≤ w.2.1 ∧ w.2.1 ≤ c.2.1 + 3) ∧
      (c.2.2 - 3 ≤ w.2.2 ∧ w.2.2 ≤ c.2.2 + 3) := by
  unfold windowCells at hw
  simp only [List.mem_flatMap, List.mem_map] at hw
  obtain ⟨i, hi, j, hj, k, hk, rfl⟩ := hw
  have hib : -3 ≤ i ∧ i ≤ 3 := by
    simp only [offsets, List.mem_cons, List.not_mem_nil, or_false] at hi
    rcases hi with rfl | rfl | rfl | rfl | rfl | rfl | rfl <;> omega
  have hjb : -3 ≤ j ∧ j ≤ 3 := by
    simp only [offsets, List.mem_cons, List.not_mem_nil, or_false] at hj
    rcases hj with rfl | rfl | rfl | rfl | rfl | rfl | rfl <;> omega
  have hkb : -3 ≤ k ∧ k ≤ 3 := by
    simp only [offsets, List.mem_cons, List.not_mem_nil, or_false] at hk
    rcases hk with rfl | rfl | rfl | rfl | rfl | rfl | rfl <;> omega
  refine ⟨⟨?_, ?_⟩, ⟨?_, ?_⟩, ⟨?_, ?_⟩⟩ <;> simp <;> omega

/-- C3: the scalar returned by `get_voronoi_noise` (run against any cache the
generator could have produced, e.g. the cleared one) is never negative, and is
exactly `0` whenever the query point is at normalized squared distance at
least `1` from the feature point of every cell of the `±3` window. -/
theorem get_voronoi_noise_zero_floor (rng : ℕ → ℕ → ℚ) (variance : ℚ)
    (_hv : 0 ≤ variance) (pts : Cache) (hpts : Consistent rng variance pts)
    (x y z scale : ℚ) :
    0 ≤ (get_voronoi_noise rng pts x y z scale variance).1 ∧
      ((∀ w ∈ windowCells (cellOf (x, y, z) scale),
          1 ≤ d2 (genFP rng variance w) (scaledPt (x, y, z) scale)) →
        (get_voronoi_noise rng pts x y z scale variance).1 = 0) := by
  rcases get_voronoi_noise_eq pts x y z scale hpts with ⟨heq, _⟩
  rw [heq]
  exact ⟨noiseVal_nonneg _ _ _, fun h => noiseVal_eq_zero h⟩

/-- With every draw equal to `10 ^ 6`, every feature point of the origin
window is far outside its lobe radius from the origin. -/
theorem farRng_uncovered :
    ∀ w ∈ windowCells (cellOf (0, 0, 0) 1),
      1 ≤ d2 (genFP (fun _ _ => 10 ^ 6) 0 w) (scaledPt (0, 0, 0) 1) := by
  intro w hw
  have hc : cellOf (0, 0, 0) 1 = ((0 : ℤ), (0 : ℤ), (0 : ℤ)) := by
    unfold cellOf; norm_num
  rw [hc] at hw
  obtain ⟨⟨h1l, h1r⟩, ⟨h2l, h2r⟩, ⟨h3l, h3r⟩⟩ := windowCells_mem_bounds hw
  norm_num at h1l h1r h2l h2r h3l h3r
  unfold d2 genFP scaledPt
  simp only
  rw [one_le_div (by positivity)]
  have q1 : ((-3 : ℤ) : ℚ) ≤ (w.1 : ℚ) := by exact_mod_cast (by omega : (-3 : ℤ) ≤ w.1)
  have q2 : ((-3 : ℤ) : ℚ) ≤ (w.2.1 : ℚ) := by exact_mod_cast (by omega : (-3 : ℤ) ≤ w.2.1)
  have q3 : ((-3 : ℤ) : ℚ) ≤ (w.2.2 : ℚ) := by exact_mod_cast (by omega : (-3 : ℤ) ≤ w.2.2)
  push_cast at q1 q2 q3
  nlinarith [sq_nonneg ((w.1 : ℚ) + 10 ^ 6 - 999997), sq_nonneg ((w.2.1 : ℚ) + 10 ^ 6 - 999997),
    sq_nonneg ((w.2.2 : ℚ) + 10 ^ 6 - 999997)]

/-- Witness for `get_voronoi_noise_zero_floor`: with every draw equal to
`10 ^ 6` all feature points are far from the origin, so the zero branch of the
conclusion is also reached. -/
theorem get_voronoi_noise_zero_floor_witness :
    0 ≤ (0 : ℚ) ∧ Consistent (fun _ _ => 10 ^ 6) 0 [] ∧
      0 ≤ (get_voronoi_noise (fun _ _ => 10 ^ 6) [] 0 0 0 1 0).1 ∧
      (get_voronoi_noise (fun _ _ => 10 ^ 6) [] 0 0 0 1 0).1 = 0 := by
  have hcons : Consistent (fun _ _ => 10 ^ 6) 0 [] := by
    intro e he; exact absurd he (List.not_mem_nil e)
  have h := get_voronoi_noise_zero_floor (fun _ _ => 10 ^ 6) 0 le_rfl [] hcons 0 0 0 1
  exact ⟨le_rfl, hcons, h.1, h.2 farRng_uncovered⟩

theorem runQueries_foldl_eq (rng : ℕ → ℕ → ℚ) (variance : ℚ) :
    ∀ (qs : List (Q3 × ℚ)) (acc : List ℝ) (pts : Cache),
      Consistent rng variance pts →
      (qs.foldl
            (fun a q =>
              let r := get_voronoi_noise rng a.2 q.1.1 q.1.2.1 q.1.2.2 q.2 variance
              (a.1 ++ [r.1], r.2)) (acc, pts)).1
          = acc ++ qs.map fun q => noiseVal (genFP rng variance) q.1 q.2 := by
  intro qs
  induction qs with
  | nil => intro acc pts _; simp
  | cons q qs ih =>
    intro acc pts h
    simp only [List.foldl_cons, List.map_cons]
    rcases get_voronoi_noise_eq pts q.1.1 q.1.2.1 q.1.2.2 q.2 h with ⟨heq, hcons⟩
    rw [ih _ _ hcons, heq]
    simp

/-- C4: feature-point generation is a pure function of the cell (and the
fixed `variance`): a fetch served from any generator-produced cache state and
a fetch that regenerates after a cache clear return the identical tuple, a
second fetch returns exactly what the first returned, and a whole query
sequence run from the cleared cache is a pure map over the queries, so
clearing and re-running reproduces identical outputs with no residual state. -/
theorem featurePoint_determinism (rng : ℕ → ℕ → ℚ) (variance : ℚ) (pts : Cache)
    (hpts : Consistent rng variance pts) (c : Cell) (qs : List (Q3 × ℚ)) :
    (getOrCreate rng variance pts c).1 = genFP rng variance c ∧
      (getOrCreate rng variance ∅ c).1 = (getOrCreate rng variance pts c).1 ∧
      (getOrCreate rng variance (getOrCreate rng variance pts c).2 c).1
        = (getOrCreate rng variance pts c).1 ∧
      (runQueries rng variance ∅ qs).1
        = qs.map fun q => noiseVal (genFP rng variance) q.1 q.2 := by
  have hempty : Consistent rng variance ∅ := by
    intro e he; exact absurd he (List.not_mem_nil e)
  refine ⟨getOrCreate_fst hpts, ?_, ?_, ?_⟩
  · rw [getOrCreate_fst hpts, getOrCreate_fst hempty]
  · rw [getOrCreate_fst hpts, getOrCreate_fst (getOrCreate_consistent hpts)]
  · exact runQueries_foldl_eq rng variance qs [] ∅ hempty

/-- Witness for `featurePoint_determinism` at a concrete cell and query. -/
theorem featurePoint_determinism_witness :
    Consistent (fun _ _ => 1 / 2) (2 / 5) [] ∧
      (getOrCreate (fun _ _ => 1 / 2) (2 / 5) [] (1, 2, 3)).1
          = genFP (fun _ _ => 1 / 2) (2 / 5) (1, 2, 3) ∧
      (runQueries (fun _ _ => 1 / 2) (2 / 5) ∅ [((0, 0, 0), 1)]).1
          = [((0, 0, 0), (1 : ℚ))].map fun q =>
              noiseVal (genFP (fun _ _ => 1 / 2) (2 / 5)) q.1 q.2 := by
  have hcons : Consistent (fun _ _ => 1 / 2) (2 / 5) [] := by
    intro e he; exact absurd he (List.not_mem_nil e)
  have h := featurePoint_determinism (fun _ _ => 1 / 2) (2 / 5) [] hcons (1, 2, 3)
    [((0, 0, 0), 1)]
  exact ⟨hcons, h.1, h.2.2.2⟩

/-! ## The mesh pipeline of `BubbleMakerCommandExecuteHandler.notify` -/

/-- One tessellator node: a position and a normal (three floats each in the
flat `coords` / `normals` buffers). -/
structure RawV where
  pos : Q3
  normal : Q3
  deriving DecidableEq

instance : Inhabited RawV := ⟨⟨(0, 0, 0), (0, 0, 0)⟩⟩

/-- The raw mesh: the vertex/normal buffer and the triangle index triples. -/
structure Mesh where
  verts : List RawV
  tris : List (ℕ × ℕ × ℕ)

/-- `round(x, 4)`. -/
def round4 (q : ℚ) : ℚ := (round (q * 10000) : ℤ) / 10000

/-- The weld key `(round(x,4), round(y,4), round(z,4))`. -/
def quantize (p : Q3) : Q3 := (round4 p.1, round4 p.2.1, round4 p.2.2)

/-- `pos_list = list(v_normals.keys())`: quantized keys in first-occurrence
order. -/
def posList (m : Mesh) : List Q3 :=
  (m.verts.map fun v => quantize v.pos).foldl
    (fun acc p => if p ∈ acc then acc else acc ++ [p]) []

/-- The raw vertices welded into the group of a key. -/
def membersOf (m : Mesh) (key : Q3) : List RawV :=
  m.verts.filter fun v => decide (quantize v.pos = key)

def vadd (a b : Q3) : Q3 := (a.1 + b.1, a.2.1 + b.2.1, a.2.2 + b.2.2)

/-- `v_normals[pos]`: the non-normalized sum of the normals of a weld group. -/
def normalSum (m : Mesh) (key : Q3) : Q3 :=
  (membersOf m key).foldr (fun v acc => vadd v.normal acc) (0, 0, 0)

/-- `v_counts[pos]`: the member count of a weld group. -/
def countOf (m : Mesh) (key : Q3) : ℕ := (membersOf m key).length

/-- `pos_idx_map[p]`: the index of a key in `pos_list`. -/
def posIdx (m : Mesh) (key : Q3) : ℕ :=
  (posList m).findIdx fun p => decide (p = key)

/-- `get_pos_key(idx)`: quantized position of the raw vertex an index names. -/
def getPosKey (m : Mesh) (idx : ℕ) : Q3 :=
  quantize ((m.verts.getD idx default).pos)

/-- `adj_list[i].add(j)`. -/
def updAdj (adj : List (Finset ℕ)) (i j : ℕ) : List (Finset ℕ) :=
  adj.set i (insert j (adj.getD i ∅))

/-- The six `add` calls a triangle performs, in source order. -/
def addTri (adj : List (Finset ℕ)) (a b c : ℕ) : List (Finset ℕ) :=
  updAdj (updAdj (updAdj (updAdj (updAdj (updAdj adj a b) a c) b a) b c) c a) c b

/-- The weld-group ids `(id1, id2, id3)` of a triangle. -/
def triIds (m : Mesh) (t : ℕ × ℕ × ℕ) : ℕ × ℕ × ℕ :=
  (posIdx m (getPosKey m t.1), posIdx m (getPosKey m t.2.1),
    posIdx m (getPosKey m t.2.2))

/-- The adjacency list built by iterating all triangles. -/
def adjBuild (m : Mesh) : List (Finset ℕ) :=
  m.tris.foldl
    (fun adj t => addTri adj (triIds m t).1 (triIds m t).2.1 (triIds m t).2.2)
    (List.replicate (posList m).length ∅)

/-- The neighbor set of weld group `i`. -/
def adjAt (m : Mesh) (i : ℕ) : Finset ℕ := (adjBuild m).getD i ∅

/-- Euclidean magnitude of a rational 3-vector. -/
noncomputable def vmagR (v : Q3) : ℝ :=
  Real.sqrt (((v.1 : ℝ)) ^ 2 + ((v.2.1 : ℝ)) ^ 2 + ((v.2.2 : ℝ)) ^ 2)

/-- Initial smoothness per weld group: `mag / count` (or `1.0` on an empty
group, per the `count > 0` guard). -/
noncomputable def initSmooth (m : Mesh) : List ℝ :=
  (posList m).map fun p =>
    if 0 < countOf m p then vmagR (normalSum m p) / (countOf m p : ℝ) else 1

/-- One diffusion pass: iterate the group indices, writing the self-plus-
neighbors average into a separate buffer initialized to a copy of the current
one; groups with no neighbors are skipped (`continue`). Reads always target
the pass-start buffer `cur`. -/
noncomputable def diffusionPass (adj : List (Finset ℕ)) (cur : List ℝ) : List ℝ :=
  (List.range cur.length).foldl
    (fun buf i =>
      if (adj.getD i ∅).Nonempty then
        buf.set i ((cur.getD i 0 + ∑ n ∈ adj.getD i ∅, cur.getD n 0) /
          (1 + ((adj.getD i ∅).card : ℝ)))
      else buf)
    cur

/-- `final_smoothness`: three diffusion passes over the initial smoothness. -/
noncomputable def smoothFinal (m : Mesh) : List ℝ :=
  (diffusionPass (adjBuild m))^[3] (initSmooth m)

/-- `attenuation = smooth_val ** 4.0`. -/
noncomputable def attenuation (m : Mesh) (v : RawV) : ℝ :=
  ((smoothFinal m).getD (posIdx m (quantize v.pos)) 0) ^ (4 : ℕ)

/-- The averaged unit normal of a vertex's weld group, with the `(0,0,1)`
fallback when the summed normal's magnitude is below `0.0001`. -/
noncomputable def unitNormal (m : Mesh) (v : RawV) : ℝ × ℝ × ℝ :=
  if vmagR (normalSum m (quantize v.pos)) < 1 / 10000 then (0, 0, 1)
  else
    (((normalSum m (quantize v.pos)).1 : ℝ) / vmagR (normalSum m (quantize v.pos)),
      ((normalSum m (quantize v.pos)).2.1 : ℝ) / vmagR (normalSum m (quantize v.pos)),
      ((normalSum m (quantize v.pos)).2.2 : ℝ) / vmagR (normalSum m (quantize v.pos)))

/-- `displacement = (val * height * attenuation) + epsilon`, with
`epsilon = 0.02` for a face selection and `0.0` for a body selection. -/
noncomputable def dispScalar (m : Mesh) (fp : Cell → FP) (height : ℝ)
    (density : ℚ) (isBody : Bool) (v : RawV) : ℝ :=
  noiseVal fp v.pos density * height * attenuation m v +
    (if isBody then 0 else 1 / 50)

/-- The displaced position of one raw vertex. -/
noncomputable def newPos (m : Mesh) (fp : Cell → FP) (height : ℝ) (density : ℚ)
    (isBody : Bool) (v : RawV) : ℝ × ℝ × ℝ :=
  ((v.pos.1 : ℝ) + (unitNormal m v).1 * dispScalar m fp height density isBody v,
    (v.pos.2.1 : ℝ) + (unitNormal m v).2.1 * dispScalar m fp height density isBody v,
    (v.pos.2.2 : ℝ) + (unitNormal m v).2.2 * dispScalar m fp height density isBody v)

/-- Euclidean distance between two real points. -/
noncomputable def distR (a b : ℝ × ℝ × ℝ) : ℝ :=
  Real.sqrt ((a.1 - b.1) ^ 2 + (a.2.1 - b.2.1) ^ 2 + (a.2.2 - b.2.2) ^ 2)

/-- Well-formed input (§6): every triangle index names an existing vertex. -/
def WF (m : Mesh) : Prop :=
  ∀ t ∈ m.tris,
    t.1 < m.verts.length ∧ t.2.1 < m.verts.length ∧ t.2.2 < m.verts.length

theorem getD_set_self {α : Type} {l : List α} {i : ℕ} {a d : α}
    (h : i < l.length) : (l.set i a).getD i d = a := by
  simp [List.getD_eq_getElem?_getD, List.getElem?_set_self h]

theorem getD_set_ne {α : Type} {l : List α} {i j : ℕ} {a d : α} (h : i ≠ j) :
    (l.set i a).getD j d = l.getD j d := by
  simp [List.getD_eq_getElem?_getD, List.getElem?_set_ne h]

theorem diffusionPass_core (adj : List (Finset ℕ)) (cur : List ℝ) :
    ∀ (n : ℕ) (buf : List ℝ), buf.length = cur.length → n ≤ cur.length →
      (((List.range n).foldl
            (fun buf i =>
              if (adj.getD i ∅).Nonempty then
                buf.set i ((cur.getD i 0 + ∑ x ∈ adj.getD i ∅, cur.getD x 0) /
                  (1 + ((adj.getD i ∅).card : ℝ)))
              else buf) buf).length = cur.length) ∧
        ∀ j,
          ((List.range n).foldl
              (fun buf i =>
                if (adj.getD i ∅).Nonempty then
                  buf.set i ((cur.getD i 0 + ∑ x ∈ adj.getD i ∅, cur.getD x 0) /
                    (1 + ((adj.getD i ∅).card : ℝ)))
                else buf) buf).getD j 0 =
            if j < n ∧ (adj.getD j ∅).Nonempty then
              (cur.getD j 0 + ∑ x ∈ adj.getD j ∅, cur.getD x 0) /
                (1 + ((adj.getD j ∅).card : ℝ))
            else buf.getD j 0 := by
  intro n
  induction n with
  | zero =>
    intro buf hlen _
    refine ⟨by simpa using hlen, ?_⟩
    intro j
    simp
  | succ n ih =>
    intro buf hlen hle
    have hn : n < cur.length := Nat.lt_of_succ_le hle
    obtain ⟨ihlen, ihget⟩ := ih buf hlen (Nat.le_of_lt hn)
    rw [List.range_succ, List.foldl_append]
    constructor
    · simp only [List.foldl_cons, List.foldl_nil]
      split
      · rw [List.length_set]; exact ihlen
      · exact ihlen
    · intro j
      simp only [List.foldl_cons, List.foldl_nil]
      by_cases hne : (adj.getD n ∅).Nonempty
      · rw [if_pos hne]
        by_cases hj : j = n
        · subst hj
          rw [getD_set_self (by rw [ihlen]; exact hn)]
          rw [if_pos ⟨Nat.lt_succ_self j, hne⟩]
        · rw [getD_set_ne (fun h => hj h.symm), ihget j]
          have : (j < n + 1) ↔ (j < n) := by omega
          simp only [this]
      · rw [if_neg hne, ihget j]
        by_cases hj : j = n
        · subst hj
          rw [if_neg (fun h => absurd h.1 (lt_irrefl j)),
            if_neg (fun h => hne h.2)]
        · have : (j < n + 1) ↔ (j < n) := by omega
          simp only [this]

/-- C6: one diffusion pass preserves the buffer length, replaces every group
that has at least one neighbor by the arithmetic mean (self weight 1, each
neighbor weight 1, divided by `1 + neighborCount`) of pass-start values only
— so the result is independent of the iteration order — and leaves every
group with no neighbors unchanged. -/
theorem diffusionPass_spec (adj : List (Finset ℕ)) (cur : List ℝ) :
    (diffusionPass adj cur).length = cur.length ∧
      ∀ i, i < cur.length →
        (diffusionPass adj cur).getD i 0 =
          if (adj.getD i ∅).Nonempty then
            (cur.getD i 0 + ∑ x ∈ adj.getD i ∅, cur.getD x 0) /
              (1 + ((adj.getD i ∅).card : ℝ))
          else cur.getD i 0 := by
  obtain ⟨hlen, hget⟩ := diffusionPass_core adj cur cur.length cur rfl le_rfl
  refine ⟨hlen, ?_⟩
  intro i hi
  rw [show diffusionPass adj cur =
      (List.range cur.length).foldl
        (fun buf i =>
          if (adj.getD i ∅).Nonempty then
            buf.set i ((cur.getD i 0 + ∑ x ∈ adj.getD i ∅, cur.getD x 0) /
              (1 + ((adj.getD i ∅).card : ℝ)))
          else buf) cur from rfl, hget i]
  by_cases hne : (adj.getD i ∅).Nonempty
  · rw [if_pos ⟨hi, hne⟩, if_pos hne]
  · rw [if_neg (fun h => hne h.2), if_neg hne]

/-- Witness for `diffusionPass_spec`: on the two-group chain `0 – 1` with a
third isolated group, the pass averages the connected groups and leaves the
isolated one alone. -/
theorem diffusionPass_spec_witness :
    (0 : ℕ) < ([0, 1, 5] : List ℝ).length ∧
      (diffusionPass [{1}, {0}, ∅] [0, 1, 5]).getD 0 0 = 1 / 2 ∧
      (diffusionPass [{1}, {0}, ∅] [0, 1, 5]).getD 2 0 = 5 := by
  have h := diffusionPass_spec [{1}, {0}, ∅] [0, 1, 5]
  refine ⟨by norm_num, ?_, ?_⟩
  · rw [h.2 0 (by norm_num)]
    norm_num [List.getD]
  · rw [h.2 2 (by norm_num)]
    norm_num [List.getD]

theorem posList_mem_iff (m : Mesh) (x : Q3) :
    x ∈ posList m ↔ x ∈ m.verts.map fun v => quantize v.pos := by
  have key : ∀ (l acc : List Q3) (x : Q3),
      x ∈ l.foldl (fun acc p => if p ∈ acc then acc else acc ++ [p]) acc ↔
        x ∈ acc ∨ x ∈ l := by
    intro l
    induction l with
    | nil => intro acc x; simp
    | cons p l ih =>
      intro acc x
      simp only [List.foldl_cons]
      by_cases hp : p ∈ acc
      · rw [if_pos hp, ih]
        constructor
        · rintro (h | h)
          · exact Or.inl h
          · exact Or.inr (List.mem_cons_of_mem p h)
        · rintro (h | h)
          · exact Or.inl h
          · rcases List.mem_cons.mp h with rfl | h
            · exact Or.inl hp
            · exact Or.inr h
      · rw [if_neg hp, ih]
        simp only [List.mem_append, List.mem_singleton, List.mem_cons]
        tauto
  rw [posList, key]
  simp

theorem posIdx_lt_length {m : Mesh} {key : Q3} (h : key ∈ posList m) :
    posIdx m key < (posList m).length :=
  List.findIdx_lt_length_of_exists ⟨key, h, by simp⟩

theorem getPosKey_mem {m : Mesh} {idx : ℕ} (h : idx < m.verts.length) :
    getPosKey m idx ∈ posList m := by
  rw [posList_mem_iff]
  unfold getPosKey
  have : m.verts.getD idx default ∈ m.verts := by
    rw [List.getD_eq_getElem?_getD, List.getElem?_eq_getElem h]
    exact List.getElem_mem h
  exact List.mem_map.mpr ⟨_, this, rfl⟩

theorem updAdj_length (adj : List (Finset ℕ)) (i j : ℕ) :
    (updAdj adj i j).length = adj.length := List.length_set adj i _

theorem mem_updAdj {adj : List (Finset ℕ)} {i j x y : ℕ} :
    x ∈ (updAdj adj i j).getD y ∅ ↔
      x ∈ adj.getD y ∅ ∨ (y = i ∧ x = j ∧ i < adj.length) := by
  unfold updAdj
  by_cases h : i = y
  · subst h
    by_cases hl : i < adj.length
    · rw [getD_set_self hl]
      simp only [Finset.mem_insert, hl, and_true, eq_self_iff_true, true_and]
      tauto
    · rw [List.set_eq_of_length_le (le_of_not_lt hl)]
      simp [hl]
  · rw [getD_set_ne h]
    constructor
    · exact Or.inl
    · rintro (hmem | ⟨rfl, -, -⟩)
      · exact hmem
      · exact absurd rfl h

theorem addTri_length (adj : List (Finset ℕ)) (a b c : ℕ) :
    (addTri adj a b c).length = adj.length := by
  unfold addTri
  simp [updAdj_length]

theorem mem_addTri {adj : List (Finset ℕ)} {a b c x y : ℕ}
    (hA : a < adj.length) (hB : b < adj.length) (hC : c < adj.length) :
    x ∈ (addTri adj a b c).getD y ∅ ↔
      x ∈ adj.getD y ∅ ∨ (y = a ∧ (x = b ∨ x = c)) ∨
        (y = b ∧ (x = a ∨ x = c)) ∨ (y = c ∧ (x = a ∨ x = b)) := by
  unfold addTri
  simp only [mem_updAdj, updAdj_length, hA, hB, hC, and_true]
  tauto

theorem replicate_getD (n i : ℕ) :
    (List.replicate n (∅ : Finset ℕ)).getD i ∅ = ∅ := by
  rw [List.getD_eq_getElem?_getD, List.getElem?_replicate]
  split <;> rfl

/-- The symmetry and conditional-irreflexivity invariant carried through the
triangle fold. -/
theorem adjBuild_foldl_invariant (m : Mesh) (hwf : WF m) :
    ∀ (ts : List (ℕ × ℕ × ℕ)), (∀ t ∈ ts, t ∈ m.tris) →
      ∀ (adj : List (Finset ℕ)), adj.length = (posList m).length →
        (∀ x y, x ∈ adj.getD y ∅ → y ∈ adj.getD x ∅) →
        ((ts.foldl
            (fun adj t => addTri adj (triIds m t).1 (triIds m t).2.1 (triIds m t).2.2)
            adj).length = (posList m).length ∧
          (∀ x y,
            x ∈ (ts.foldl
                (fun adj t => addTri adj (triIds m t).1 (triIds m t).2.1 (triIds m t).2.2)
                adj).getD y ∅ →
              y ∈ (ts.foldl
                (fun adj t => addTri adj (triIds m t).1 (triIds m t).2.1 (triIds m t).2.2)
                adj).getD x ∅)) ∧
          ((∀ t ∈ ts, (triIds m t).1 ≠ (triIds m t).2.1 ∧
              (triIds m t).1 ≠ (triIds m t).2.2 ∧ (triIds m t).2.1 ≠ (triIds m t).2.2) →
            (∀ x, x ∉ adj.getD x ∅) →
            ∀ x, x ∉ (ts.foldl
                (fun adj t => addTri adj (triIds m t).1 (triIds m t).2.1 (triIds m t).2.2)
                adj).getD x ∅) := by
  intro ts
  induction ts with
  | nil =>
    intro _ adj hlen hsym
    exact ⟨⟨hlen, hsym⟩, fun _ hnl x => hnl x⟩
  | cons t ts ih =>
    intro hts adj hlen hsym
    have htm : t ∈ m.tris := hts t (List.mem_cons_self t ts)
    obtain ⟨h1, h2, h3⟩ := hwf t htm
    have hid1 : (triIds m t).1 < adj.length := by
      rw [hlen]; exact posIdx_lt_length (getPosKey_mem h1)
    have hid2 : (triIds m t).2.1 < adj.length := by
      rw [hlen]; exact posIdx_lt_length (getPosKey_mem h2)
    have hid3 : (triIds m t).2.2 < adj.length := by
      rw [hlen]; exact posIdx_lt_length (getPosKey_mem h3)
    simp only [List.foldl_cons]
    have hlen' : (addTri adj (triIds m t).1 (triIds m t).2.1 (triIds m t).2.2).length
        = (posList m).length := by rw [addTri_length, hlen]
    have hsym' : ∀ x y,
        x ∈ (addTri adj (triIds m t).1 (triIds m t).2.1 (triIds m t).2.2).getD y ∅ →
          y ∈ (addTri adj (triIds m t).1 (triIds m t).2.1 (triIds m t).2.2).getD x ∅ := by
      intro x y hxy
      rw [mem_addTri hid1 hid2 hid3] at hxy ⊢
      rcases hxy with h | h | h | h
      · exact Or.inl (hsym x y h)
      · tauto
      · tauto
      · tauto
    obtain ⟨hmain, hloop⟩ := ih (fun t' ht' => hts t' (List.mem_cons_of_mem t ht'))
      _ hlen' hsym'
    refine ⟨hmain, ?_⟩
    intro hdist hnl x
    apply hloop (fun t' ht' => hdist t' (List.mem_cons_of_mem t ht'))
    intro z
    obtain ⟨hd12, hd13, hd23⟩ := hdist t (List.mem_cons_self t ts)
    intro hz
    rw [mem_addTri hid1 hid2 hid3] at hz
    rcases hz with h | h | h | h
    · exact hnl z h
    · rcases h.2 with h' | h' <;> [exact hd12 (h.1.symm.trans h'); exact hd13 (h.1.symm.trans h')]
    · rcases h.2 with h' | h' <;>
        [exact hd12 (h'.symm.trans h.1); exact hd23 (h.1.symm.trans h')]
    · rcases h.2 with h' | h' <;>
        [exact hd13 (h'.symm.trans h.1); exact hd23 (h'.symm.trans h.1)]

/-- C8 (amended): for well-formed input the adjacency structure is symmetric
(and carries no multiplicity, being a list of finite sets); it has no
self-loops provided every triangle's three weld-group ids are pairwise
distinct — a degenerate triangle whose corners weld together does produce a
self-loop (see the counterexample). -/
theorem adjacency_spec (m : Mesh) (hwf : WF m) :
    (∀ x y, x ∈ adjAt m y ↔ y ∈ adjAt m x) ∧
      ((∀ t ∈ m.tris, (triIds m t).1 ≠ (triIds m t).2.1 ∧
          (triIds m t).1 ≠ (triIds m t).2.2 ∧ (triIds m t).2.1 ≠ (triIds m t).2.2) →
        ∀ x, x ∉ adjAt m x) := by
  have h := adjBuild_foldl_invariant m hwf m.tris (fun _ ht => ht)
    (List.replicate (posList m).length ∅) (List.length_replicate _ _)
    (by intro x y hxy; rw [replicate_getD] at hxy; exact absurd hxy (Finset.not_mem_empty x))
  have hsym := h.1.2
  have hloop := h.2
  constructor
  · intro x y
    constructor
    · exact hsym x y
    · exact hsym y x
  · intro hdist x
    exact hloop hdist
      (by intro z hz; rw [replicate_getD] at hz; exact absurd hz (Finset.not_mem_empty z)) x

/-- A well-formed triangle whose three corners weld to distinct groups. -/
def meshW : Mesh :=
  ⟨[⟨(0, 0, 0), (0, 0, 1)⟩, ⟨(1, 0, 0), (0, 0, 1)⟩, ⟨(0, 1, 0), (0, 0, 1)⟩],
    [(0, 1, 2)]⟩

theorem meshW_triIds : triIds meshW (0, 1, 2) = (0, 1, 2) := by
  simp [triIds, getPosKey, posIdx, meshW, quantize, round4, posList,
    List.findIdx_cons, Prod.ext_iff]

/-- Witness for `adjacency_spec` on a single nondegenerate triangle. -/
theorem adjacency_spec_witness :
    WF meshW ∧ (1 ∈ adjAt meshW 0 ↔ 0 ∈ adjAt meshW 1) ∧
      ∀ x, x ∉ adjAt meshW x := by
  have hwf : WF meshW := by
    intro t ht
    simp only [meshW, List.mem_singleton] at ht
    subst ht
    refine ⟨?_, ?_, ?_⟩ <;> simp [meshW]
  have h := adjacency_spec meshW hwf
  refine ⟨hwf, h.1 1 0, h.2 ?_⟩
  intro t ht
  simp only [meshW, List.mem_singleton] at ht
  subst ht
  rw [meshW_triIds]
  refine ⟨?_, ?_, ?_⟩ <;> norm_num

/-- A degenerate index buffer: the triangle `(0, 0, 1)` names weld group `0`
twice. -/
def meshLoop : Mesh :=
  ⟨[⟨(0, 0, 0), (0, 0, 1)⟩, ⟨(1, 0, 0), (0, 0, 1)⟩], [(0, 0, 1)]⟩

/-- Counterexample to C8 as stated: for the index buffer `[(0, 0, 1)]` the
adjacency structure makes weld group `0` its own neighbor. -/
theorem adjacency_self_loop_counterexample :
    WF meshLoop ∧ 0 ∈ adjAt meshLoop 0 := by
  constructor
  · intro t ht
    simp only [meshLoop, List.mem_singleton] at ht
    subst ht
    refine ⟨?_, ?_, ?_⟩ <;> simp [meshLoop]
  · have hids : triIds meshLoop (0, 0, 1) = (0, 0, 1) := by
      simp [triIds, getPosKey, posIdx, meshLoop, quantize, round4, posList,
        List.findIdx_cons, Prod.ext_iff]
    have hpl : (posList meshLoop).length = 2 := by
      simp [posList, meshLoop, quantize, round4, Prod.ext_iff]
    unfold adjAt adjBuild
    simp only [meshLoop, List.foldl_cons, List.foldl_nil]
    rw [show ((⟨[⟨(0, 0, 0), (0, 0, 1)⟩, ⟨(1, 0, 0), (0, 0, 1)⟩],
          [(0, 0, 1)]⟩ : Mesh) = meshLoop) from rfl, hids, hpl]
    simp [addTri, updAdj, List.getD, Finset.mem_insert]

/-! ## Smoothness bounds (C7) -/

theorem vmagR_nonneg (v : Q3) : 0 ≤ vmagR v := Real.sqrt_nonneg _

theorem cauchy3 (a1 a2 a3 b1 b2 b3 : ℝ) :
    (a1 * b1 + a2 * b2 + a3 * b3) ^ 2 ≤
      (a1 ^ 2 + a2 ^ 2 + a3 ^ 2) * (b1 ^ 2 + b2 ^ 2 + b3 ^ 2) := by
  nlinarith [sq_nonneg (a1 * b2 - a2 * b1), sq_nonneg (a1 * b3 - a3 * b1),
    sq_nonneg (a2 * b3 - a3 * b2)]

theorem vmagR_add_le (a b : Q3) : vmagR (vadd a b) ≤ vmagR a + vmagR b := by
  unfold vmagR vadd
  have hA : (0 : ℝ) ≤ ((a.1 : ℝ)) ^ 2 + ((a.2.1 : ℝ)) ^ 2 + ((a.2.2 : ℝ)) ^ 2 := by
    positivity
  have hB : (0 : ℝ) ≤ ((b.1 : ℝ)) ^ 2 + ((b.2.1 : ℝ)) ^ 2 + ((b.2.2 : ℝ)) ^ 2 := by
    positivity
  have hdot : (a.1 : ℝ) * (b.1 : ℝ) + (a.2.1 : ℝ) * (b.2.1 : ℝ) +
      (a.2.2 : ℝ) * (b.2.2 : ℝ) ≤
        Real.sqrt (((a.1 : ℝ)) ^ 2 + ((a.2.1 : ℝ)) ^ 2 + ((a.2.2 : ℝ)) ^ 2) *
          Real.sqrt (((b.1 : ℝ)) ^ 2 + ((b.2.1 : ℝ)) ^ 2 + ((b.2.2 : ℝ)) ^ 2) := by
    calc (a.1 : ℝ) * (b.1 : ℝ) + (a.2.1 : ℝ) * (b.2.1 : ℝ) +
        (a.2.2 : ℝ) * (b.2.2 : ℝ)
        ≤ |(a.1 : ℝ) * (b.1 : ℝ) + (a.2.1 : ℝ) * (b.2.1 : ℝ) +
            (a.2.2 : ℝ) * (b.2.2 : ℝ)| := le_abs_self _
      _ = Real.sqrt (((a.1 : ℝ) * (b.1 : ℝ) + (a.2.1 : ℝ) * (b.2.1 : ℝ) +
            (a.2.2 : ℝ) * (b.2.2 : ℝ)) ^ 2) := (Real.sqrt_sq_eq_abs _).symm
      _ ≤ Real.sqrt ((((a.1 : ℝ)) ^ 2 + ((a.2.1 : ℝ)) ^ 2 + ((a.2.2 : ℝ)) ^ 2) *
            (((b.1 : ℝ)) ^ 2 + ((b.2.1 : ℝ)) ^ 2 + ((b.2.2 : ℝ)) ^ 2)) :=
          Real.sqrt_le_sqrt (cauchy3 _ _ _ _ _ _)
      _ = _ := Real.sqrt_mul hA _
  have hsq : ((((a.1 + b.1 : ℚ)) : ℝ)) ^ 2 + ((((a.2.1 + b.2.1 : ℚ)) : ℝ)) ^ 2 +
      ((((a.2.2 + b.2.2 : ℚ)) : ℝ)) ^ 2 ≤
        (Real.sqrt (((a.1 : ℝ)) ^ 2 + ((a.2.1 : ℝ)) ^ 2 + ((a.2.2 : ℝ)) ^ 2) +
          Real.sqrt (((b.1 : ℝ)) ^ 2 + ((b.2.1 : ℝ)) ^ 2 + ((b.2.2 : ℝ)) ^ 2)) ^ 2 := by
    push_cast
    nlinarith [hdot, Real.sq_sqrt hA, Real.sq_sqrt hB,
      Real.sqrt_nonneg (((a.1 : ℝ)) ^ 2 + ((a.2.1 : ℝ)) ^ 2 + ((a.2.2 : ℝ)) ^ 2),
      Real.sqrt_nonneg (((b.1 : ℝ)) ^ 2 + ((b.2.1 : ℝ)) ^ 2 + ((b.2.2 : ℝ)) ^ 2)]
  calc Real.sqrt (((((a.1 + b.1 : ℚ)) : ℝ)) ^ 2 + ((((a.2.1 + b.2.1 : ℚ)) : ℝ)) ^ 2 +
        ((((a.2.2 + b.2.2 : ℚ)) : ℝ)) ^ 2)
      ≤ Real.sqrt ((Real.sqrt (((a.1 : ℝ)) ^ 2 + ((a.2.1 : ℝ)) ^ 2 + ((a.2.2 : ℝ)) ^ 2) +
          Real.sqrt (((b.1 : ℝ)) ^ 2 + ((b.2.1 : ℝ)) ^ 2 + ((b.2.2 : ℝ)) ^ 2)) ^ 2) :=
        Real.sqrt_le_sqrt hsq
    _ = _ := Real.sqrt_sq (by positivity)

/-- A vector of norm-1 entries: its magnitude as computed in `initSmooth`. -/
theorem vmagR_unit {n : Q3}
    (h : n.1 ^ 2 + n.2.1 ^ 2 + n.2.2 ^ 2 = 1) : vmagR n = 1 := by
  unfold vmagR
  rw [show ((n.1 : ℝ)) ^ 2 + ((n.2.1 : ℝ)) ^ 2 + ((n.2.2 : ℝ)) ^ 2
      = ((n.1 ^ 2 + n.2.1 ^ 2 + n.2.2 ^ 2 : ℚ) : ℝ) by push_cast; ring, h]
  exact_mod_cast Real.sqrt_one

theorem vmagR_foldr_le (l : List RawV)
    (hunit : ∀ v ∈ l,
      v.normal.1 ^ 2 + v.normal.2.1 ^ 2 + v.normal.2.2 ^ 2 = 1) :
    vmagR (l.foldr (fun v acc => vadd v.normal acc) (0, 0, 0)) ≤ l.length := by
  induction l with
  | nil =>
    simp only [List.foldr_nil, List.length_nil, Nat.cast_zero]
    unfold vmagR
    norm_num
  | cons v l ih =>
    simp only [List.foldr_cons, List.length_cons]
    calc vmagR (vadd v.normal (l.foldr (fun v acc => vadd v.normal acc) (0, 0, 0)))
        ≤ vmagR v.normal +
          vmagR (l.foldr (fun v acc => vadd v.normal acc) (0, 0, 0)) :=
          vmagR_add_le _ _
      _ ≤ 1 + l.length := by
          rw [vmagR_unit (hunit v (List.mem_cons_self v l))]
          exact add_le_add_left
            (ih fun v' hv' => hunit v' (List.mem_cons_of_mem v hv')) 1
      _ = ((l.length + 1 : ℕ) : ℝ) := by push_cast; ring

theorem normalSum_mag_le (m : Mesh) (key : Q3)
    (hunit : ∀ v ∈ m.verts,
      v.normal.1 ^ 2 + v.normal.2.1 ^ 2 + v.normal.2.2 ^ 2 = 1) :
    vmagR (normalSum m key) ≤ countOf m key := by
  unfold normalSum countOf
  exact vmagR_foldr_le _ fun v hv =>
    hunit v (List.mem_of_mem_filter hv)

/-- Bounds for the initial smoothness field, index by index (out-of-range
reads default to `0`, which also satisfies the bounds). -/
theorem initSmooth_bounds (m : Mesh)
    (hunit : ∀ v ∈ m.verts,
      v.normal.1 ^ 2 + v.normal.2.1 ^ 2 + v.normal.2.2 ^ 2 = 1) :
    ∀ i, 0 ≤ (initSmooth m).getD i 0 ∧ (initSmooth m).getD i 0 ≤ 1 := by
  intro i
  unfold initSmooth
  rw [List.getD_eq_getElem?_getD, List.getElem?_map]
  cases hp : (posList m)[i]? with
  | none => simp
  | some p =>
    simp only [Option.map_some', Option.getD_some]
    by_cases hc : 0 < countOf m p
    · rw [if_pos hc]
      constructor
      · exact div_nonneg (vmagR_nonneg _) (by positivity)
      · rw [div_le_one (by exact_mod_cast hc)]
        exact normalSum_mag_le m p hunit
    · rw [if_neg hc]
      norm_num

theorem getD_zero_of_length_le {l : List ℝ} {i : ℕ} (h : l.length ≤ i) :
    l.getD i 0 = 0 := by
  rw [List.getD_eq_getElem?_getD, List.getElem?_eq_none h]
  rfl

/-- One diffusion pass preserves entrywise `[0, 1]` bounds: every written
value is a convex combination of pass-start values. -/
theorem diffusionPass_bounds (adj : List (Finset ℕ)) (cur : List ℝ)
    (hcur : ∀ j, 0 ≤ cur.getD j 0 ∧ cur.getD j 0 ≤ 1) :
    ∀ j, 0 ≤ (diffusionPass adj cur).getD j 0 ∧
      (diffusionPass adj cur).getD j 0 ≤ 1 := by
  obtain ⟨hlen, hget⟩ := diffusionPass_spec adj cur
  intro j
  by_cases hj : j < cur.length
  · rw [hget j hj]
    by_cases hne : (adj.getD j ∅).Nonempty
    · rw [if_pos hne]
      have hsum0 : (0 : ℝ) ≤ ∑ x ∈ adj.getD j ∅, cur.getD x 0 :=
        Finset.sum_nonneg fun x _ => (hcur x).1
      have hsum1 : ∑ x ∈ adj.getD j ∅, cur.getD x 0 ≤ ((adj.getD j ∅).card : ℝ) := by
        calc ∑ x ∈ adj.getD j ∅, cur.getD x 0
            ≤ (adj.getD j ∅).card • (1 : ℝ) :=
              Finset.sum_le_card_nsmul _ _ 1 fun x _ => (hcur x).2
          _ = ((adj.getD j ∅).card : ℝ) := by simp
      have hden : (0 : ℝ) < 1 + ((adj.getD j ∅).card : ℝ) := by positivity
      constructor
      · exact div_nonneg (add_nonneg (hcur j).1 hsum0) (le_of_lt hden)
      · rw [div_le_one hden]
        exact add_le_add (hcur j).2 hsum1
    · rw [if_neg hne]
      exact hcur j
  · rw [getD_zero_of_length_le (by rw [hlen]; omega)]
    norm_num

/-- C7: with unit input normals, every entry of the smoothness field lies in
`[0, 1]`: initially (`|normalSum| / count`), and after each of the three
diffusion passes. -/
theorem smoothness_field_bounds (m : Mesh)
    (hunit : ∀ v ∈ m.verts,
      v.normal.1 ^ 2 + v.normal.2.1 ^ 2 + v.normal.2.2 ^ 2 = 1) :
    (∀ k ≤ 3, ∀ i,
        0 ≤ ((diffusionPass (adjBuild m))^[k] (initSmooth m)).getD i 0 ∧
          ((diffusionPass (adjBuild m))^[k] (initSmooth m)).getD i 0 ≤ 1) ∧
      ∀ i, 0 ≤ (smoothFinal m).getD i 0 ∧ (smoothFinal m).getD i 0 ≤ 1 := by
  have hiter : ∀ k, ∀ i,
      0 ≤ ((diffusionPass (adjBuild m))^[k] (initSmooth m)).getD i 0 ∧
        ((diffusionPass (adjBuild m))^[k] (initSmooth m)).getD i 0 ≤ 1 := by
    intro k
    induction k with
    | zero => exact initSmooth_bounds m hunit
    | succ k ih =>
      rw [Function.iterate_succ_apply']
      exact diffusionPass_bounds _ _ ih
  exact ⟨fun k _ => hiter k, hiter 3⟩

/-- Witness for `smoothness_field_bounds` on the flat triangle `meshW`. -/
theorem smoothness_field_bounds_witness :
    (∀ v ∈ meshW.verts,
        v.normal.1 ^ 2 + v.normal.2.1 ^ 2 + v.normal.2.2 ^ 2 = 1) ∧
      ∀ i, 0 ≤ (smoothFinal meshW).getD i 0 ∧ (smoothFinal meshW).getD i 0 ≤ 1 := by
  have hunit : ∀ v ∈ meshW.verts,
      v.normal.1 ^ 2 + v.normal.2.1 ^ 2 + v.normal.2.2 ^ 2 = 1 := by
    intro v hv
    simp only [meshW, List.mem_cons, List.not_mem_nil, or_false] at hv
    rcases hv with rfl | rfl | rfl <;> norm_num
  exact ⟨hunit, (smoothness_field_bounds meshW hunit).2⟩

/-! ## Displacement application (C9, C10) -/

/-- The original vertex position, as a real point. -/
def realPos (v : RawV) : ℝ × ℝ × ℝ := ((v.pos.1 : ℝ), (v.pos.2.1 : ℝ), (v.pos.2.2 : ℝ))

/-- Euclidean norm of a real 3-vector. -/
noncomputable def normR (u : ℝ × ℝ × ℝ) : ℝ :=
  Real.sqrt (u.1 ^ 2 + u.2.1 ^ 2 + u.2.2 ^ 2)

theorem unitNormal_norm (m : Mesh) (v : RawV) : normR (unitNormal m v) = 1 := by
  unfold unitNormal
  split
  · unfold normR
    norm_num
  · rename_i hge
    have hmag : 1 / 10000 ≤ vmagR (normalSum m (quantize v.pos)) := le_of_not_lt hge
    have hpos : 0 < vmagR (normalSum m (quantize v.pos)) := lt_of_lt_of_le (by norm_num) hmag
    unfold normR
    have hS : vmagR (normalSum m (quantize v.pos)) ^ 2 =
        (((normalSum m (quantize v.pos)).1 : ℝ)) ^ 2 +
          (((normalSum m (quantize v.pos)).2.1 : ℝ)) ^ 2 +
          (((normalSum m (quantize v.pos)).2.2 : ℝ)) ^ 2 := by
      unfold vmagR
      rw [Real.sq_sqrt (by positivity)]
    rw [show (((normalSum m (quantize v.pos)).1 : ℝ) / vmagR (normalSum m (quantize v.pos))) ^ 2 +
        (((normalSum m (quantize v.pos)).2.1 : ℝ) / vmagR (normalSum m (quantize v.pos))) ^ 2 +
        (((normalSum m (quantize v.pos)).2.2 : ℝ) / vmagR (normalSum m (quantize v.pos))) ^ 2 =
        ((((normalSum m (quantize v.pos)).1 : ℝ)) ^ 2 +
          (((normalSum m (quantize v.pos)).2.1 : ℝ)) ^ 2 +
          (((normalSum m (quantize v.pos)).2.2 : ℝ)) ^ 2) /
          vmagR (normalSum m (quantize v.pos)) ^ 2 by ring, ← hS,
      div_self (by positivity)]
    exact Real.sqrt_one

/-- A displaced vertex moves by exactly the absolute displacement scalar. -/
theorem newPos_dist (m : Mesh) (fp : Cell → FP) (height : ℝ) (density : ℚ)
    (isBody : Bool) (v : RawV) :
    distR (newPos m fp height density isBody v) (realPos v) =
      |dispScalar m fp height density isBody v| := by
  unfold distR newPos realPos
  rw [show ((v.pos.1 : ℝ) + (unitNormal m v).1 * dispScalar m fp height density isBody v -
      (v.pos.1 : ℝ)) = (unitNormal m v).1 * dispScalar m fp height density isBody v by ring,
    show ((v.pos.2.1 : ℝ) + (unitNormal m v).2.1 * dispScalar m fp height density isBody v -
      (v.pos.2.1 : ℝ)) = (unitNormal m v).2.1 * dispScalar m fp height density isBody v by ring,
    show ((v.pos.2.2 : ℝ) + (unitNormal m v).2.2 * dispScalar m fp height density isBody v -
      (v.pos.2.2 : ℝ)) = (unitNormal m v).2.2 * dispScalar m fp height density isBody v by ring]
  rw [show ((unitNormal m v).1 * dispScalar m fp height density isBody v) ^ 2 +
      ((unitNormal m v).2.1 * dispScalar m fp height density isBody v) ^ 2 +
      ((unitNormal m v).2.2 * dispScalar m fp height density isBody v) ^ 2 =
      ((unitNormal m v).1 ^ 2 + (unitNormal m v).2.1 ^ 2 + (unitNormal m v).2.2 ^ 2) *
        dispScalar m fp height density isBody v ^ 2 by ring]
  rw [Real.sqrt_mul (by positivity), Real.sqrt_sq_eq_abs]
  have hn : Real.sqrt ((unitNormal m v).1 ^ 2 + (unitNormal m v).2.1 ^ 2 +
      (unitNormal m v).2.2 ^ 2) = 1 := unitNormal_norm m v
  rw [hn, one_mul]

/-- C9: a below-epsilon summed normal is handled locally, not fatally: the
substitute unit normal `(0, 0, 1)` is used; at or above the epsilon the
normalized summed normal is used; in both cases the displacement direction is
a unit vector and the vertex moves by exactly the displacement scalar. -/
theorem degenerate_normal_fallback (m : Mesh) (fp : Cell → FP) (height : ℝ)
    (density : ℚ) (isBody : Bool) (v : RawV) :
    (vmagR (normalSum m (quantize v.pos)) < 1 / 10000 →
        unitNormal m v = (0, 0, 1)) ∧
      (1 / 10000 ≤ vmagR (normalSum m (quantize v.pos)) →
        unitNormal m v =
          (((normalSum m (quantize v.pos)).1 : ℝ) / vmagR (normalSum m (quantize v.pos)),
            ((normalSum m (quantize v.pos)).2.1 : ℝ) / vmagR (normalSum m (quantize v.pos)),
            ((normalSum m (quantize v.pos)).2.2 : ℝ) / vmagR (normalSum m (quantize v.pos)))) ∧
      normR (unitNormal m v) = 1 ∧
      distR (newPos m fp height density isBody v) (realPos v) =
        |dispScalar m fp height density isBody v| := by
  refine ⟨?_, ?_, unitNormal_norm m v, newPos_dist m fp height density isBody v⟩
  · intro h
    unfold unitNormal
    rw [if_pos h]
  · intro h
    unfold unitNormal
    rw [if_neg (not_lt.mpr h)]

/-- Two coincident vertices with opposite normals: the summed normal is zero. -/
def meshDeg : Mesh :=
  ⟨[⟨(0, 0, 0), (0, 0, 1)⟩, ⟨(0, 0, 0), (0, 0, -1)⟩], []⟩

theorem meshDeg_normalSum :
    normalSum meshDeg (quantize (0, 0, 0)) = (0, 0, 0) := by
  simp [normalSum, membersOf, meshDeg, quantize, round4, vadd, Prod.ext_iff]

/-- Witness for `degenerate_normal_fallback`: on the zero normal sum the
fallback normal is taken and the vertex still moves by the displacement. -/
theorem degenerate_normal_fallback_witness :
    vmagR (normalSum meshDeg (quantize ((0 : ℚ), (0 : ℚ), (0 : ℚ)))) < 1 / 10000 ∧
      unitNormal meshDeg ⟨(0, 0, 0), (0, 0, 1)⟩ = (0, 0, 1) ∧
      normR (unitNormal meshDeg ⟨(0, 0, 0), (0, 0, 1)⟩) = 1 := by
  have hz : vmagR (normalSum meshDeg (quantize ((0 : ℚ), (0 : ℚ), (0 : ℚ)))) < 1 / 10000 := by
    rw [meshDeg_normalSum]
    unfold vmagR
    norm_num
  have h := degenerate_normal_fallback meshDeg (fun _ => ⟨0, 0, 0, 9 / 10, 11 / 10⟩)
    (1 / 2) 1 false ⟨(0, 0, 0), (0, 0, 1)⟩
  exact ⟨hz, h.1 hz, h.2.2.1⟩

/-- C10: with a face selection the epsilon bias `0.02` is added
unconditionally, so (for nonnegative `height`) every vertex is displaced by at
least `0.02` along a unit direction even where the noise is `0`; with a body
selection the bias is `0` and a zero-noise vertex does not move. -/
theorem epsilon_bias (m : Mesh) (fp : Cell → FP) (height : ℝ) (density : ℚ)
    (v : RawV) (hh : 0 ≤ height) :
    (1 / 50 ≤ dispScalar m fp height density false v ∧
        1 / 50 ≤ distR (newPos m fp height density false v) (realPos v)) ∧
      (noiseVal fp v.pos density = 0 →
        dispScalar m fp height density true v = 0 ∧
          newPos m fp height density true v = realPos v) := by
  have hbase : ∀ b : Bool, 0 ≤ noiseVal fp v.pos density * height * attenuation m v := by
    intro _
    apply mul_nonneg (mul_nonneg (noiseVal_nonneg _ _ _) hh)
    unfold attenuation
    positivity
  constructor
  · have hd : 1 / 50 ≤ dispScalar m fp height density false v := by
      unfold dispScalar
      simp only [Bool.false_eq_true, if_false]
      linarith [hbase false]
    refine ⟨hd, ?_⟩
    rw [newPos_dist, abs_of_nonneg (by linarith)]
    exact hd
  · intro hz
    have hd : dispScalar m fp height density true v = 0 := by
      unfold dispScalar
      rw [hz]
      simp
    refine ⟨hd, ?_⟩
    unfold newPos realPos
    rw [hd]
    simp

/-- Witness for `epsilon_bias`: a face run always moves a vertex by at least
`0.02`, and a body run with the far feature points (zero noise at the origin)
leaves the origin vertex in place. -/
theorem epsilon_bias_witness :
    (0 : ℝ) ≤ 1 / 2 ∧
      1 / 50 ≤ distR
        (newPos meshW (genFP (fun _ _ => 10 ^ 6) 0) (1 / 2) 1 false
          ⟨(0, 0, 0), (0, 0, 1)⟩)
        (realPos ⟨(0, 0, 0), (0, 0, 1)⟩) ∧
      newPos meshW (genFP (fun _ _ => 10 ^ 6) 0) (1 / 2) 1 true
          ⟨(0, 0, 0), (0, 0, 1)⟩ = realPos ⟨(0, 0, 0), (0, 0, 1)⟩ := by
  have hz : noiseVal (genFP (fun _ _ => 10 ^ 6) 0) ((0 : ℚ), (0 : ℚ), (0 : ℚ)) 1 = 0 :=
    noiseVal_eq_zero farRng_uncovered
  have h := epsilon_bias meshW (genFP (fun _ _ => 10 ^ 6) 0) (1 / 2) 1
    ⟨(0, 0, 0), (0, 0, 1)⟩ (by norm_num)
  exact ⟨by norm_num, h.1.2, (h.2 hz).2⟩

/-! ## Admissible feature points and the noise upper bound -/

/-- The range the generator draws from for one cell: jittered position inside
the cell, `h_f ∈ [0.9, 0.9 + variance * 1.5]`, `r_f ∈ [1.1, 1.6]`. -/
def AdmissibleFP (variance : ℚ) (c : Cell) (f : FP) : Prop :=
  ((c.1 : ℚ) ≤ f.px ∧ f.px < (c.1 : ℚ) + 1) ∧
    ((c.2.1 : ℚ) ≤ f.py ∧ f.py < (c.2.1 : ℚ) + 1) ∧
    ((c.2.2 : ℚ) ≤ f.pz ∧ f.pz < (c.2.2 : ℚ) + 1) ∧
    (9 / 10 ≤ f.hf ∧ f.hf ≤ 9 / 10 + variance * (3 / 2)) ∧
    (11 / 10 ≤ f.rf ∧ f.rf ≤ 8 / 5)

/-- A feature-point assignment every cell of which is in generator range. -/
def Admissible (variance : ℚ) (fp : Cell → FP) : Prop :=
  ∀ c, AdmissibleFP variance c (fp c)

theorem genFP_admissible {rng : ℕ → ℕ → ℚ} {variance : ℚ}
    (hr : RngValid rng) (hv : 0 ≤ variance) :
    Admissible variance (genFP rng variance) := by
  intro c
  unfold AdmissibleFP genFP
  obtain ⟨h0l, h0r⟩ := hr (seedOf c) 0
  obtain ⟨h1l, h1r⟩ := hr (seedOf c) 1
  obtain ⟨h2l, h2r⟩ := hr (seedOf c) 2
  obtain ⟨h3l, h3r⟩ := hr (seedOf c) 3
  obtain ⟨h4l, h4r⟩ := hr (seedOf c) 4
  refine ⟨⟨by linarith, by linarith⟩, ⟨by linarith, by linarith⟩,
    ⟨by linarith, by linarith⟩, ⟨by nlinarith, by nlinarith⟩,
    ⟨by nlinarith, by nlinarith⟩⟩

theorem d2_nonneg {f : FP} {s : Q3} (hrf : 11 / 10 ≤ f.rf) : 0 ≤ d2 f s := by
  unfold d2
  apply div_nonneg (by positivity)
  positivity

theorem contrib_nonneg {f : FP} (s : Q3) (hhf : 0 ≤ f.hf) : 0 ≤ contrib f s := by
  unfold contrib
  split
  · exact mul_nonneg (sq_nonneg _) hhf
  · exact le_rfl

theorem contrib_le {f : FP} (s : Q3) {B : ℚ} (hrf : 11 / 10 ≤ f.rf)
    (hhf0 : 0 ≤ f.hf) (hhfB : f.hf ≤ B) : contrib f s ≤ B := by
  unfold contrib
  split
  · rename_i hlt
    have h0 : 0 ≤ d2 f s := d2_nonneg hrf
    have hsq : (1 - d2 f s) ^ 2 ≤ 1 := by nlinarith
    calc (1 - d2 f s) ^ 2 * f.hf ≤ 1 * f.hf :=
        mul_le_mul_of_nonneg_right hsq hhf0
      _ ≤ B := by linarith
  · linarith

set_option maxRecDepth 4000 in
theorem windowCells_length (c : Cell) : (windowCells c).length = 343 := by
  unfold windowCells offsets
  simp

/-- The noise value is at most `343^(1/6) = √7` times the largest admissible
lobe height. -/
theorem noiseVal_le_bound {fp : Cell → FP} {variance : ℚ} (p : Q3) (scale : ℚ)
    (hadm : Admissible variance fp) :
    noiseVal fp p scale ≤
      Real.sqrt 7 * ((9 / 10 + variance * (3 / 2) : ℚ) : ℝ) := by
  set B : ℚ := 9 / 10 + variance * (3 / 2) with hB
  have hB0 : (0 : ℚ) ≤ B := by
    rw [hB]
    linarith [((hadm (0, 0, 0)).2.2.2.1).1, ((hadm (0, 0, 0)).2.2.2.1).2]
  have hhf : ∀ w ∈ windowCells (cellOf p scale), 0 ≤ (fp w).hf := fun w _ => by
    linarith [(hadm w).2.2.2.1.1]
  rw [noiseVal_eq_sum hhf]
  have hterm : ∀ x ∈ (windowCells (cellOf p scale)).map fun w =>
      ((contrib (fp w) (scaledPt p scale) : ℚ) : ℝ) ^ (6 : ℕ),
      x ≤ ((B : ℝ)) ^ (6 : ℕ) := by
    intro x hx
    rcases List.mem_map.mp hx with ⟨w, _, rfl⟩
    have h1 : (0 : ℚ) ≤ contrib (fp w) (scaledPt p scale) :=
      contrib_nonneg _ (by linarith [(hadm w).2.2.2.1.1])
    have h2 : contrib (fp w) (scaledPt p scale) ≤ B :=
      contrib_le _ (hadm w).2.2.2.2.1 (by linarith [(hadm w).2.2.2.1.1])
        (hadm w).2.2.2.1.2
    have : ((contrib (fp w) (scaledPt p scale) : ℚ) : ℝ) ≤ ((B : ℚ) : ℝ) := by
      exact_mod_cast h2
    exact pow_le_pow_left₀ (by exact_mod_cast h1) this 6
  have hsum : ((windowCells (cellOf p scale)).map fun w =>
      ((contrib (fp w) (scaledPt p scale) : ℚ) : ℝ) ^ (6 : ℕ)).sum ≤
        343 * ((B : ℝ)) ^ (6 : ℕ) := by
    calc ((windowCells (cellOf p scale)).map fun w =>
        ((contrib (fp w) (scaledPt p scale) : ℚ) : ℝ) ^ (6 : ℕ)).sum
        ≤ (((windowCells (cellOf p scale)).map fun w =>
            ((contrib (fp w) (scaledPt p scale) : ℚ) : ℝ) ^ (6 : ℕ)).length : ℕ) •
              ((B : ℝ)) ^ (6 : ℕ) := List.sum_le_card_nsmul _ _ hterm
      _ = 343 * ((B : ℝ)) ^ (6 : ℕ) := by
          rw [List.length_map, windowCells_length]
          simp [nsmul_eq_mul]
  calc (((windowCells (cellOf p scale)).map fun w =>
        ((contrib (fp w) (scaledPt p scale) : ℚ) : ℝ) ^ (6 : ℕ)).sum) ^ ((6 : ℝ)⁻¹)
      ≤ (343 * ((B : ℝ)) ^ (6 : ℕ)) ^ ((6 : ℝ)⁻¹) := by
        apply Real.rpow_le_rpow _ hsum (by norm_num)
        apply List.sum_nonneg
        intro x hx
        rcases List.mem_map.mp hx with ⟨w, _, rfl⟩
        positivity
    _ = Real.sqrt 7 * ((B : ℚ) : ℝ) := by
        have hBR : (0 : ℝ) ≤ ((B : ℚ) : ℝ) := by exact_mod_cast hB0
        rw [Real.mul_rpow (by norm_num) (by positivity)]
        have h343 : ((343 : ℝ)) ^ ((6 : ℝ)⁻¹) = Real.sqrt 7 := by
          rw [show (343 : ℝ) = 7 ^ (3 : ℕ) by norm_num, ← Real.rpow_natCast 7 3,
            ← Real.rpow_mul (by norm_num)]
          rw [show ((3 : ℕ) : ℝ) * (6 : ℝ)⁻¹ = 2⁻¹ by norm_num]
          rw [Real.sqrt_eq_rpow, one_div]
        have hBpow : (((B : ℚ) : ℝ) ^ (6 : ℕ)) ^ ((6 : ℝ)⁻¹) = ((B : ℚ) : ℝ) := by
          have h6 : ((6 : ℕ) : ℝ)⁻¹ = (6 : ℝ)⁻¹ := by norm_num
          rw [← h6, Real.pow_rpow_inv_natCast hBR (by norm_num)]
        rw [h343, hBpow]

/-! ## The flat-quad scenario (C1) -/

theorem adjBuild_mem_lt (m : Mesh) (hwf : WF m) :
    ∀ y x, x ∈ adjAt m y → x < (posList m).length := by
  suffices h : ∀ (ts : List (ℕ × ℕ × ℕ)), (∀ t ∈ ts, t ∈ m.tris) →
      ∀ adj : List (Finset ℕ), adj.length = (posList m).length →
        (∀ y x, x ∈ adj.getD y ∅ → x < (posList m).length) →
        ∀ y x,
          x ∈ (ts.foldl
              (fun adj t => addTri adj (triIds m t).1 (triIds m t).2.1 (triIds m t).2.2)
              adj).getD y ∅ → x < (posList m).length by
    intro y x hx
    exact h m.tris (fun _ ht => ht) _ (List.length_replicate _ _)
      (by intro y' x' hx'; rw [replicate_getD] at hx'
          exact absurd hx' (Finset.not_mem_empty x')) y x hx
  intro ts
  induction ts with
  | nil => intro _ adj _ hadj; exact hadj
  | cons t ts ih =>
    intro hts adj hlen hadj
    have htm : t ∈ m.tris := hts t (List.mem_cons_self t ts)
    obtain ⟨h1, h2, h3⟩ := hwf t htm
    have hid1 : (triIds m t).1 < adj.length := by
      rw [hlen]; exact posIdx_lt_length (getPosKey_mem h1)
    have hid2 : (triIds m t).2.1 < adj.length := by
      rw [hlen]; exact posIdx_lt_length (getPosKey_mem h2)
    have hid3 : (triIds m t).2.2 < adj.length := by
      rw [hlen]; exact posIdx_lt_length (getPosKey_mem h3)
    simp only [List.foldl_cons]
    apply ih (fun t' ht' => hts t' (List.mem_cons_of_mem t ht'))
    · rw [addTri_length, hlen]
    · intro y x hx
      rw [mem_addTri hid1 hid2 hid3] at hx
      rcases hx with hx | hx | hx | hx
      · exact hadj y x hx
      · rcases hx.2 with rfl | rfl <;> [exact hlen ▸ hid2; exact hlen ▸ hid3]
      · rcases hx.2 with rfl | rfl <;> [exact hlen ▸ hid1; exact hlen ▸ hid3]
      · rcases hx.2 with rfl | rfl <;> [exact hlen ▸ hid1; exact hlen ▸ hid2]

theorem normalSum_flat (m : Mesh)
    (hflat : ∀ v ∈ m.verts, v.normal = ((0 : ℚ), (0 : ℚ), (1 : ℚ))) (key : Q3) :
    normalSum m key = (0, 0, (countOf m key : ℚ)) := by
  unfold normalSum countOf
  have hsub : ∀ v ∈ membersOf m key, v.normal = ((0 : ℚ), (0 : ℚ), (1 : ℚ)) :=
    fun v hv => hflat v (List.mem_of_mem_filter hv)
  revert hsub
  generalize membersOf m key = l
  intro hsub
  induction l with
  | nil => simp [Prod.ext_iff]
  | cons v l ih =>
    simp only [List.foldr_cons, List.length_cons]
    rw [ih (fun v' hv' => hsub v' (List.mem_cons_of_mem v hv')),
      hsub v (List.mem_cons_self v l)]
    unfold vadd
    simp [Prod.ext_iff]
    ring

theorem countOf_pos {m : Mesh} {v : RawV} (hv : v ∈ m.verts) :
    0 < countOf m (quantize v.pos) := by
  unfold countOf membersOf
  apply List.length_pos.mpr
  apply List.ne_nil_of_mem (a := v)
  rw [List.mem_filter]
  exact ⟨hv, by simp⟩

theorem countOf_pos_of_mem_posList {m : Mesh} {key : Q3}
    (h : key ∈ posList m) : 0 < countOf m key := by
  rcases List.mem_map.mp ((posList_mem_iff m key).mp h) with ⟨v, hv, rfl⟩
  exact countOf_pos hv

theorem vmagR_axis (c : ℚ) (h : 0 ≤ c) :
    vmagR ((0 : ℚ), (0 : ℚ), c) = (c : ℝ) := by
  unfold vmagR
  push_cast
  rw [show (0 : ℝ) ^ 2 + (0 : ℝ) ^ 2 + (c : ℝ) ^ 2 = ((c : ℝ)) ^ 2 by ring]
  rw [Real.sqrt_sq (by exact_mod_cast h)]

theorem initSmooth_flat (m : Mesh)
    (hflat : ∀ v ∈ m.verts, v.normal = ((0 : ℚ), (0 : ℚ), (1 : ℚ))) :
    (initSmooth m).length = (posList m).length ∧
      ∀ i < (posList m).length, (initSmooth m).getD i 0 = 1 := by
  constructor
  · unfold initSmooth; exact List.length_map _ _
  · intro i hi
    unfold initSmooth
    rw [List.getD_eq_getElem?_getD, List.getElem?_map,
      List.getElem?_eq_getElem hi]
    simp only [Option.map_some', Option.getD_some]
    have hkey : (posList m)[i] ∈ posList m := List.getElem_mem hi
    have hc : 0 < countOf m (posList m)[i] := countOf_pos_of_mem_posList hkey
    rw [if_pos hc, normalSum_flat m hflat, vmagR_axis _ (by positivity)]
    push_cast
    rw [div_self (by exact_mod_cast hc.ne')]

theorem diffusionPass_ones (adj : List (Finset ℕ)) (cur : List ℝ)
    (hadj : ∀ y x, x ∈ adj.getD y ∅ → x < cur.length)
    (hcur : ∀ j < cur.length, cur.getD j 0 = 1) :
    (diffusionPass adj cur).length = cur.length ∧
      ∀ j < cur.length, (diffusionPass adj cur).getD j 0 = 1 := by
  obtain ⟨hlen, hget⟩ := diffusionPass_spec adj cur
  refine ⟨hlen, ?_⟩
  intro j hj
  rw [hget j hj]
  by_cases hne : (adj.getD j ∅).Nonempty
  · rw [if_pos hne]
    have hsum : ∑ x ∈ adj.getD j ∅, cur.getD x 0 = ((adj.getD j ∅).card : ℝ) := by
      rw [Finset.sum_congr rfl fun x hx => hcur x (hadj j x hx)]
      simp
    rw [hcur j hj, hsum, div_self (by positivity)]
  · rw [if_neg hne]
    exact hcur j hj

theorem smoothFinal_flat (m : Mesh) (hwf : WF m)
    (hflat : ∀ v ∈ m.verts, v.normal = ((0 : ℚ), (0 : ℚ), (1 : ℚ))) :
    (smoothFinal m).length = (posList m).length ∧
      ∀ i < (posList m).length, (smoothFinal m).getD i 0 = 1 := by
  obtain ⟨hlen0, hones0⟩ := initSmooth_flat m hflat
  have step : ∀ cur : List ℝ, cur.length = (posList m).length →
      (∀ j < (posList m).length, cur.getD j 0 = 1) →
      (diffusionPass (adjBuild m) cur).length = (posList m).length ∧
        ∀ j < (posList m).length, (diffusionPass (adjBuild m) cur).getD j 0 = 1 := by
    intro cur hl ho
    have := diffusionPass_ones (adjBuild m) cur
      (by intro y x hx
          rw [hl]
          exact adjBuild_mem_lt m hwf y x hx)
      (by intro j hj; exact ho j (hl ▸ hj))
    exact ⟨by rw [this.1, hl], fun j hj => this.2 j (hl ▸ hj)⟩
  have h1 := step (initSmooth m) hlen0 hones0
  have h2 := step _ h1.1 h1.2
  have h3 := step _ h2.1 h2.2
  have hun : smoothFinal m =
      diffusionPass (adjBuild m)
        (diffusionPass (adjBuild m) (diffusionPass (adjBuild m) (initSmooth m))) := rfl
  rw [hun]
  exact h3

theorem attenuation_flat {m : Mesh} (hwf : WF m)
    (hflat : ∀ v ∈ m.verts, v.normal = ((0 : ℚ), (0 : ℚ), (1 : ℚ)))
    {v : RawV} (hv : v ∈ m.verts) : attenuation m v = 1 := by
  unfold attenuation
  have hkey : quantize v.pos ∈ posList m := by
    rw [posList_mem_iff]
    exact List.mem_map.mpr ⟨v, hv, rfl⟩
  rw [(smoothFinal_flat m hwf hflat).2 _ (posIdx_lt_length hkey)]
  norm_num

theorem unitNormal_flat {m : Mesh}
    (hflat : ∀ v ∈ m.verts, v.normal = ((0 : ℚ), (0 : ℚ), (1 : ℚ)))
    {v : RawV} (hv : v ∈ m.verts) : unitNormal m v = (0, 0, 1) := by
  unfold unitNormal
  rw [normalSum_flat m hflat]
  have hc : 0 < countOf m (quantize v.pos) := countOf_pos hv
  have hc1 : 1 ≤ countOf m (quantize v.pos) := hc
  have hc1R : (1 : ℝ) ≤ ((countOf m (quantize v.pos) : ℚ) : ℝ) := by
    exact_mod_cast hc1
  rw [vmagR_axis _ (by positivity)]
  rw [if_neg (fun h => by linarith)]
  refine Prod.ext ?_ (Prod.ext ?_ ?_)
  · norm_num
  · norm_num
  · exact div_self (by linarith)

/-- C1 (amended): on a mesh whose raw normals are all `(0, 0, 1)` (the flat
quad), run as a face selection with `height = 0.5`, `density = 1.5`,
`variance = 0.4`, every vertex is displaced purely along `+z`; the
displacement magnitude is bounded by `height * 1.5 * √7 + 0.02 ≈ 2.0` (not by
`height`: a single admissible lobe of height up to `1.5` can exceed it, see
the counterexample). -/
theorem flat_quad_displacement (m : Mesh) (hwf : WF m)
    (hflat : ∀ v ∈ m.verts, v.normal = ((0 : ℚ), (0 : ℚ), (1 : ℚ)))
    (fp : Cell → FP) (hfp : Admissible (2 / 5) fp)
    (v : RawV) (hv : v ∈ m.verts) :
    (newPos m fp (1 / 2) (3 / 2) false v).1 = (v.pos.1 : ℝ) ∧
      (newPos m fp (1 / 2) (3 / 2) false v).2.1 = (v.pos.2.1 : ℝ) ∧
      (v.pos.2.2 : ℝ) ≤ (newPos m fp (1 / 2) (3 / 2) false v).2.2 ∧
      distR (newPos m fp (1 / 2) (3 / 2) false v) (realPos v) ≤
        1 / 2 * (Real.sqrt 7 * (3 / 2)) + 1 / 50 := by
  have hatt : attenuation m v = 1 := attenuation_flat hwf hflat hv
  have hdisp0 : 0 ≤ dispScalar m fp (1 / 2) (3 / 2) false v := by
    unfold dispScalar
    simp only [Bool.false_eq_true, if_false]
    have h1 : 0 ≤ noiseVal fp v.pos (3 / 2) := noiseVal_nonneg _ _ _
    rw [hatt, mul_one]
    have : 0 ≤ noiseVal fp v.pos (3 / 2) * (1 / 2) :=
      mul_nonneg h1 (by norm_num)
    linarith
  have hunit : unitNormal m v = (0, 0, 1) := unitNormal_flat hflat hv
  have hdisple : dispScalar m fp (1 / 2) (3 / 2) false v ≤
      1 / 2 * (Real.sqrt 7 * (3 / 2)) + 1 / 50 := by
    unfold dispScalar
    simp only [Bool.false_eq_true, if_false]
    rw [hatt, mul_one]
    have hle := noiseVal_le_bound v.pos (3 / 2) hfp
    rw [show ((9 / 10 + 2 / 5 * (3 / 2) : ℚ) : ℝ) = 3 / 2 by norm_num] at hle
    linarith
  refine ⟨?_, ?_, ?_, ?_⟩
  · unfold newPos
    rw [hunit]
    norm_num
  · unfold newPos
    rw [hunit]
    norm_num
  · unfold newPos
    rw [hunit]
    simp only
    linarith
  · rw [newPos_dist, abs_of_nonneg hdisp0]
    exact hdisple

/-- The flat quad of the end-to-end scenario: 4 vertices, 2 triangles, all
raw normals `(0, 0, 1)`. -/
def quadCE : Mesh :=
  ⟨[⟨(3 / 10, 3 / 10, 3 / 10), (0, 0, 1)⟩, ⟨(2 / 5, 3 / 10, 3 / 10), (0, 0, 1)⟩,
      ⟨(2 / 5, 2 / 5, 3 / 10), (0, 0, 1)⟩, ⟨(3 / 10, 2 / 5, 3 / 10), (0, 0, 1)⟩],
    [(0, 1, 2), (0, 2, 3)]⟩

/-- The in-cell jitter that puts a cell's feature point at the end of its
interval away from the scan center. -/
def farC (z : ℤ) : ℚ := if 1 ≤ z then (z : ℚ) + 99 / 100 else (z : ℚ)

/-- An admissible assignment with a single tall lobe centered exactly at the
scaled position of the quad's first vertex and every other feature point
pushed out of reach. -/
def fpTall : Cell → FP := fun c =>
  if c = ((0 : ℤ), (0 : ℤ), (0 : ℤ)) then ⟨9 / 20, 9 / 20, 9 / 20, 7 / 5, 11 / 10⟩
  else ⟨farC c.1, farC c.2.1, farC c.2.2, 9 / 10, 11 / 10⟩

theorem farC_range (z : ℤ) : (z : ℚ) ≤ farC z ∧ farC z < (z : ℚ) + 1 := by
  unfold farC
  split <;> constructor <;> linarith

theorem fpTall_admissible : Admissible (2 / 5) fpTall := by
  intro c
  unfold AdmissibleFP fpTall
  by_cases hc : c = ((0 : ℤ), (0 : ℤ), (0 : ℤ))
  · rw [if_pos hc, hc]
    norm_num
  · rw [if_neg hc]
    refine ⟨⟨(farC_range c.1).1, (farC_range c.1).2⟩,
      ⟨(farC_range c.2.1).1, (farC_range c.2.1).2⟩,
      ⟨(farC_range c.2.2).1, (farC_range c.2.2).2⟩, ?_, ?_⟩ <;> norm_num

theorem fpTall_hf_nonneg (c : Cell) : 0 ≤ (fpTall c).hf := by
  unfold fpTall
  split <;> norm_num

theorem list_map_sum_single {α : Type} [BEq α] [LawfulBEq α] (w₀ : α) (f : α → ℝ) :
    ∀ l : List α, (∀ w ∈ l, w ≠ w₀ → f w = 0) →
      (l.map f).sum = (l.count w₀ : ℝ) * f w₀ := by
  intro l
  induction l with
  | nil => intro _; simp
  | cons w l ih =>
    intro h
    simp only [List.map_cons, List.sum_cons]
    rw [ih fun w' hw' h' => h w' (List.mem_cons_of_mem w hw') h']
    by_cases hw : w = w₀
    · subst hw
      rw [show (w :: l).count w = l.count w + 1 by
        simp [List.count_cons]]
      push_cast
      ring
    · rw [h w (List.mem_cons_self w l) hw,
        show (w :: l).count w₀ = l.count w₀ by
          simp [List.count_cons]
          intro hcontra
          exact absurd hcontra hw]
      ring

theorem farC_far {z : ℤ} (hz : z ≠ 0) : (121 / 100 : ℚ) ≤ (9 / 20 - farC z) ^ 2 := by
  unfold farC
  by_cases h1 : 1 ≤ z
  · rw [if_pos h1]
    have : (1 : ℚ) ≤ (z : ℚ) := by exact_mod_cast h1
    nlinarith
  · rw [if_neg h1]
    have hz' : z ≤ -1 := by omega
    have : (z : ℚ) ≤ -1 := by exact_mod_cast hz'
    nlinarith

theorem fpTall_contrib_zero {w : Cell} (hw : w ≠ ((0 : ℤ), (0 : ℤ), (0 : ℤ))) :
    contrib (fpTall w) (9 / 20, 9 / 20, 9 / 20) = 0 := by
  unfold contrib
  rw [if_neg]
  unfold fpTall
  rw [if_neg hw]
  unfold d2
  simp only
  rw [not_lt, one_le_div (by norm_num)]
  have hcase : w.1 ≠ 0 ∨ w.2.1 ≠ 0 ∨ w.2.2 ≠ 0 := by
    by_contra hcon
    push_neg at hcon
    exact hw (Prod.ext hcon.1 (Prod.ext hcon.2.1 hcon.2.2))
  rcases hcase with h | h | h
  · nlinarith [farC_far h, sq_nonneg (9 / 20 - farC w.2.1), sq_nonneg (9 / 20 - farC w.2.2)]
  · nlinarith [farC_far h, sq_nonneg (9 / 20 - farC w.1), sq_nonneg (9 / 20 - farC w.2.2)]
  · nlinarith [farC_far h, sq_nonneg (9 / 20 - farC w.1), sq_nonneg (9 / 20 - farC w.2.1)]

set_option maxRecDepth 10000 in
theorem window_count_center :
    (windowCells ((0 : ℤ), (0 : ℤ), (0 : ℤ))).count ((0 : ℤ), (0 : ℤ), (0 : ℤ)) = 1 := by
  decide

theorem fpTall_noise :
    noiseVal fpTall (3 / 10, 3 / 10, 3 / 10) (3 / 2) = 7 / 5 := by
  have hsp : scaledPt ((3 / 10 : ℚ), (3 / 10 : ℚ), (3 / 10 : ℚ)) (3 / 2)
      = (9 / 20, 9 / 20, 9 / 20) := by
    unfold scaledPt
    norm_num
  have hcell : cellOf ((3 / 10 : ℚ), (3 / 10 : ℚ), (3 / 10 : ℚ)) (3 / 2)
      = ((0 : ℤ), (0 : ℤ), (0 : ℤ)) := by
    unfold cellOf
    norm_num [Int.floor_eq_zero_iff]
  rw [noiseVal_eq_sum fun w _ => fpTall_hf_nonneg w, hsp, hcell]
  rw [list_map_sum_single _ _ _
    (by intro w _ hw
        rw [fpTall_contrib_zero hw]
        norm_num)]
  rw [window_count_center]
  have hc : contrib (fpTall ((0 : ℤ), (0 : ℤ), (0 : ℤ))) (9 / 20, 9 / 20, 9 / 20)
      = 7 / 5 := by
    unfold contrib contribVal d2 fpTall
    norm_num
  rw [hc]
  rw [show ((1 : ℕ) : ℝ) * ((7 / 5 : ℚ) : ℝ) ^ (6 : ℕ) = ((7 / 5 : ℝ)) ^ (6 : ℕ) by
    push_cast; ring]
  have h6 : ((6 : ℕ) : ℝ)⁻¹ = (6 : ℝ)⁻¹ := by norm_num
  rw [← h6, Real.pow_rpow_inv_natCast (by norm_num) (by norm_num)]

theorem quadCE_wf : WF quadCE := by
  intro t ht
  simp only [quadCE, List.mem_cons, List.not_mem_nil, or_false] at ht
  rcases ht with rfl | rfl <;> refine ⟨?_, ?_, ?_⟩ <;> simp [quadCE]

theorem quadCE_flat :
    ∀ v ∈ quadCE.verts, v.normal = ((0 : ℚ), (0 : ℚ), (1 : ℚ)) := by
  intro v hv
  simp only [quadCE, List.mem_cons, List.not_mem_nil, or_false] at hv
  rcases hv with rfl | rfl | rfl | rfl <;> rfl

/-- Counterexample to C1 as stated: on the flat quad with
`height = 0.5, density = 1.5, variance = 0.4` there is an admissible
feature-point draw (a single lobe of height `1.4` centered at the first
vertex) under which that vertex is displaced by `0.72 > height`. -/
theorem flat_quad_bound_counterexample :
    WF quadCE ∧ (∀ v ∈ quadCE.verts, v.normal = ((0 : ℚ), (0 : ℚ), (1 : ℚ))) ∧
      Admissible (2 / 5) fpTall ∧ quadCE.verts.length = 4 ∧ quadCE.tris.length = 2 ∧
      ¬ ∀ v ∈ quadCE.verts,
          distR (newPos quadCE fpTall (1 / 2) (3 / 2) false v) (realPos v) ≤ 1 / 2 := by
  refine ⟨quadCE_wf, quadCE_flat, fpTall_admissible, rfl, rfl, ?_⟩
  intro hall
  have hv0 : (⟨(3 / 10, 3 / 10, 3 / 10), (0, 0, 1)⟩ : RawV) ∈ quadCE.verts := by
    simp [quadCE]
  have hd := hall _ hv0
  have hatt : attenuation quadCE (⟨(3 / 10, 3 / 10, 3 / 10), (0, 0, 1)⟩ : RawV) = 1 :=
    attenuation_flat quadCE_wf quadCE_flat hv0
  have hdisp : dispScalar quadCE fpTall (1 / 2) (3 / 2) false
      (⟨(3 / 10, 3 / 10, 3 / 10), (0, 0, 1)⟩ : RawV) = 18 / 25 := by
    unfold dispScalar
    simp only [Bool.false_eq_true, if_false]
    rw [hatt, mul_one]
    rw [show noiseVal fpTall
        (⟨(3 / 10, 3 / 10, 3 / 10), (0, 0, 1)⟩ : RawV).pos (3 / 2)
        = 7 / 5 from fpTall_noise]
    norm_num
  rw [newPos_dist, hdisp, abs_of_nonneg (by norm_num : (0 : ℝ) ≤ 18 / 25)] at hd
  norm_num at hd

/-- Witness for `flat_quad_displacement` at the first quad vertex under the
tall admissible assignment. -/
theorem flat_quad_displacement_witness :
    WF quadCE ∧ Admissible (2 / 5) fpTall ∧
      (newPos quadCE fpTall (1 / 2) (3 / 2) false
          (⟨(3 / 10, 3 / 10, 3 / 10), (0, 0, 1)⟩ : RawV)).1 = ((3 / 10 : ℚ) : ℝ) ∧
      distR
          (newPos quadCE fpTall (1 / 2) (3 / 2) false
            (⟨(3 / 10, 3 / 10, 3 / 10), (0, 0, 1)⟩ : RawV))
          (realPos (⟨(3 / 10, 3 / 10, 3 / 10), (0, 0, 1)⟩ : RawV)) ≤
        1 / 2 * (Real.sqrt 7 * (3 / 2)) + 1 / 50 := by
  have hv0 : (⟨(3 / 10, 3 / 10, 3 / 10), (0, 0, 1)⟩ : RawV) ∈ quadCE.verts := by
    simp [quadCE]
  have h := flat_quad_displacement quadCE quadCE_wf quadCE_flat fpTall
    fpTall_admissible _ hv0
  exact ⟨quadCE_wf, fpTall_admissible, h.1, h.2.2.2⟩

/-! ## Continuity of the noise field (C2) -/

theorem mem_offsets {z : ℤ} : z ∈ offsets ↔ -3 ≤ z ∧ z ≤ 3 := by
  constructor
  · intro h
    simp only [offsets, List.mem_cons, List.not_mem_nil, or_false] at h
    rcases h with rfl | rfl | rfl | rfl | rfl | rfl | rfl <;> omega
  · intro ⟨h1, h2⟩
    have : z = -3 ∨ z = -2 ∨ z = -1 ∨ z = 0 ∨ z = 1 ∨ z = 2 ∨ z = 3 := by omega
    rcases this with rfl | rfl | rfl | rfl | rfl | rfl | rfl <;> decide

theorem windowCells_mem_of_bounds {w c : Cell}
    (h1 : c.1 - 3 ≤ w.1 ∧ w.1 ≤ c.1 + 3) (h2 : c.2.1 - 3 ≤ w.2.1 ∧ w.2.1 ≤ c.2.1 + 3)
    (h3 : c.2.2 - 3 ≤ w.2.2 ∧ w.2.2 ≤ c.2.2 + 3) : w ∈ windowCells c := by
  obtain ⟨w1, w2, w3⟩ := w
  obtain ⟨c1, c2, c3⟩ := c
  simp only at h1 h2 h3
  unfold windowCells
  simp only [List.mem_flatMap, List.mem_map]
  refine ⟨w1 - c1, mem_offsets.mpr ⟨by omega, by omega⟩,
    w2 - c2, mem_offsets.mpr ⟨by omega, by omega⟩,
    w3 - c3, mem_offsets.mpr ⟨by omega, by omega⟩, ?_⟩
  simp only [Prod.mk.injEq]
  refine ⟨by omega, by omega, by omega⟩

theorem windowCells_nodup (c : Cell) : (windowCells c).Nodup := by
  have hoff : offsets.Nodup := by decide
  unfold windowCells
  rw [List.nodup_flatMap]
  constructor
  · intro i _
    rw [List.nodup_flatMap]
    constructor
    · intro j _
      apply List.Nodup.map _ hoff
      intro k k' he
      have := congrArg (fun t : Cell => t.2.2) he
      simpa using this
    · apply hoff.imp
      intro j j' hne x hx hx'
      rcases List.mem_map.mp hx with ⟨k, _, rfl⟩
      rcases List.mem_map.mp hx' with ⟨k', _, he⟩
      have := congrArg (fun t : Cell => t.2.1) he
      simp only at this
      exact hne (by omega)
  · apply hoff.imp
    intro i i' hne x hx hx'
    simp only [List.mem_flatMap, List.mem_map] at hx hx'
    obtain ⟨j, _, k, _, rfl⟩ := hx
    obtain ⟨j', _, k', _, he⟩ := hx'
    have := congrArg (fun t : Cell => t.1) he
    simp only at this
    exact hne (by omega)

/-- A cell at componentwise distance with some coordinate out of lobe reach
contributes nothing, for an in-range feature point. -/
theorem contrib_zero_far {variance : ℚ} {f : FP} {c : Cell}
    (hadm : AdmissibleFP variance c f) (s : Q3)
    (h : (s.1 + 8 / 5 ≤ (c.1 : ℚ) ∨ (c.1 : ℚ) + 1 + 8 / 5 ≤ s.1) ∨
      (s.2.1 + 8 / 5 ≤ (c.2.1 : ℚ) ∨ (c.2.1 : ℚ) + 1 + 8 / 5 ≤ s.2.1) ∨
      (s.2.2 + 8 / 5 ≤ (c.2.2 : ℚ) ∨ (c.2.2 : ℚ) + 1 + 8 / 5 ≤ s.2.2)) :
    contrib f s = 0 := by
  obtain ⟨hpx, hpy, hpz, hhf, hrf⟩ := hadm
  unfold contrib
  rw [if_neg]
  rw [not_lt]
  unfold d2
  rw [one_le_div (by nlinarith [hrf.1])]
  have hrf2 : f.rf ^ 2 ≤ 64 / 25 := by nlinarith [hrf.1, hrf.2]
  rcases h with (h | h) | (h | h) | (h | h)
  · nlinarith [sq_nonneg (s.2.1 - f.py), sq_nonneg (s.2.2 - f.pz), hpx.1, hpx.2]
  · nlinarith [sq_nonneg (s.2.1 - f.py), sq_nonneg (s.2.2 - f.pz), hpx.1, hpx.2]
  · nlinarith [sq_nonneg (s.1 - f.px), sq_nonneg (s.2.2 - f.pz), hpy.1, hpy.2]
  · nlinarith [sq_nonneg (s.1 - f.px), sq_nonneg (s.2.2 - f.pz), hpy.1, hpy.2]
  · nlinarith [sq_nonneg (s.1 - f.px), sq_nonneg (s.2.1 - f.py), hpz.1, hpz.2]
  · nlinarith [sq_nonneg (s.1 - f.px), sq_nonneg (s.2.1 - f.py), hpz.1, hpz.2]

/-- A nonzero contribution only comes from a cell within `±2` of the cell of
the scaled query point. -/
theorem contrib_support {variance : ℚ} {fp : Cell → FP}
    (hadm : Admissible variance fp) (s : Q3) {w : Cell}
    (hw : contrib (fp w) s ≠ 0) :
    (⌊s.1⌋ - 2 ≤ w.1 ∧ w.1 ≤ ⌊s.1⌋ + 2) ∧
      (⌊s.2.1⌋ - 2 ≤ w.2.1 ∧ w.2.1 ≤ ⌊s.2.1⌋ + 2) ∧
      (⌊s.2.2⌋ - 2 ≤ w.2.2 ∧ w.2.2 ≤ ⌊s.2.2⌋ + 2) := by
  by_contra hcon
  apply hw
  apply contrib_zero_far (hadm w)
  have hx1 := Int.floor_le s.1
  have hx2 := Int.lt_floor_add_one s.1
  have hy1 := Int.floor_le s.2.1
  have hy2 := Int.lt_floor_add_one s.2.1
  have hz1 := Int.floor_le s.2.2
  have hz2 := Int.lt_floor_add_one s.2.2
  rcases not_and_or.mp hcon with h | hBC
  · rw [not_and_or] at h
    left
    rcases h with h | h
    · right
      have : w.1 + 1 ≤ ⌊s.1⌋ - 2 := by omega
      have hc : ((w.1 : ℚ) + 1) ≤ ((⌊s.1⌋ : ℤ) : ℚ) - 2 := by exact_mod_cast this
      linarith
    · left
      have : ⌊s.1⌋ + 3 ≤ w.1 := by omega
      have hc : ((⌊s.1⌋ : ℤ) : ℚ) + 3 ≤ (w.1 : ℚ) := by exact_mod_cast this
      linarith
  rcases not_and_or.mp hBC with h | h
  · rw [not_and_or] at h
    right; left
    rcases h with h | h
    · right
      have : w.2.1 + 1 ≤ ⌊s.2.1⌋ - 2 := by omega
      have hc : ((w.2.1 : ℚ) + 1) ≤ ((⌊s.2.1⌋ : ℤ) : ℚ) - 2 := by exact_mod_cast this
      linarith
    · left
      have : ⌊s.2.1⌋ + 3 ≤ w.2.1 := by omega
      have hc : ((⌊s.2.1⌋ : ℤ) : ℚ) + 3 ≤ (w.2.1 : ℚ) := by exact_mod_cast this
      linarith
  · rw [not_and_or] at h
    right; right
    rcases h with h | h
    · right
      have : w.2.2 + 1 ≤ ⌊s.2.2⌋ - 2 := by omega
      have hc : ((w.2.2 : ℚ) + 1) ≤ ((⌊s.2.2⌋ : ℤ) : ℚ) - 2 := by exact_mod_cast this
      linarith
    · left
      have : ⌊s.2.2⌋ + 3 ≤ w.2.2 := by omega
      have hc : ((⌊s.2.2⌋ : ℤ) : ℚ) + 3 ≤ (w.2.2 : ℚ) := by exact_mod_cast this
      linarith

theorem support_mem_window {variance : ℚ} {fp : Cell → FP}
    (hadm : Admissible variance fp) (p : Q3) (scale : ℚ) {w : Cell}
    (hw : contrib (fp w) (scaledPt p scale) ≠ 0) :
    w ∈ windowCells (cellOf p scale) := by
  obtain ⟨hx, hy, hz⟩ := contrib_support hadm (scaledPt p scale) hw
  have hc : cellOf p scale =
      (⌊(scaledPt p scale).1⌋, ⌊(scaledPt p scale).2.1⌋, ⌊(scaledPt p scale).2.2⌋) := rfl
  rw [hc]
  refine windowCells_mem_of_bounds ⟨?_, ?_⟩ ⟨?_, ?_⟩ ⟨?_, ?_⟩
  · show ⌊(scaledPt p scale).1⌋ - 3 ≤ w.1
    omega
  · show w.1 ≤ ⌊(scaledPt p scale).1⌋ + 3
    omega
  · show ⌊(scaledPt p scale).2.1⌋ - 3 ≤ w.2.1
    omega
  · show w.2.1 ≤ ⌊(scaledPt p scale).2.1⌋ + 3
    omega
  · show ⌊(scaledPt p scale).2.2⌋ - 3 ≤ w.2.2
    omega
  · show w.2.2 ≤ ⌊(scaledPt p scale).2.2⌋ + 3
    omega

theorem noiseVal_eq_finset_sum {variance : ℚ} {fp : Cell → FP}
    (hadm : Admissible variance fp) (p : Q3) (scale : ℚ) :
    noiseVal fp p scale =
      (∑ w ∈ (windowCells (cellOf p scale)).toFinset,
        ((contrib (fp w) (scaledPt p scale) : ℚ) : ℝ) ^ (6 : ℕ)) ^ ((6 : ℝ)⁻¹) := by
  rw [noiseVal_eq_sum fun w _ => by linarith [(hadm w).2.2.2.1.1]]
  rw [List.sum_toFinset _ (windowCells_nodup _)]

theorem noiseVal_eq_sum_over {variance : ℚ} {fp : Cell → FP}
    (hadm : Admissible variance fp) (p : Q3) (scale : ℚ) (U : Finset Cell)
    (hU : (windowCells (cellOf p scale)).toFinset ⊆ U) :
    noiseVal fp p scale =
      (∑ w ∈ U, ((contrib (fp w) (scaledPt p scale) : ℚ) : ℝ) ^ (6 : ℕ)) ^ ((6 : ℝ)⁻¹) := by
  have hsum : ∑ w ∈ (windowCells (cellOf p scale)).toFinset,
      ((contrib (fp w) (scaledPt p scale) : ℚ) : ℝ) ^ (6 : ℕ) =
        ∑ w ∈ U, ((contrib (fp w) (scaledPt p scale) : ℚ) : ℝ) ^ (6 : ℕ) := by
    apply Finset.sum_subset hU
    intro w _ hnot
    have hz : contrib (fp w) (scaledPt p scale) = 0 := by
      by_contra hne
      exact hnot (List.mem_toFinset.mpr (support_mem_window hadm p scale hne))
    rw [hz]
    norm_num
  rw [noiseVal_eq_finset_sum hadm, hsum]

/-- One-sided Minkowski step for the sixth-power seminorm over a finite cell
set. -/
theorem lp6_diff_bound (U : Finset Cell) (u v : Cell → ℝ)
    (hu : ∀ w ∈ U, 0 ≤ u w) (hv : ∀ w ∈ U, 0 ≤ v w) :
    (∑ w ∈ U, v w ^ (6 : ℕ)) ^ ((6 : ℝ)⁻¹) ≤
      (∑ w ∈ U, u w ^ (6 : ℕ)) ^ ((6 : ℝ)⁻¹) +
        (∑ w ∈ U, |v w - u w| ^ (6 : ℕ)) ^ ((6 : ℝ)⁻¹) := by
  have hstep : (∑ w ∈ U, v w ^ (6 : ℕ)) ≤
      ∑ w ∈ U, (u w + |v w - u w|) ^ (6 : ℕ) := by
    apply Finset.sum_le_sum
    intro w hw
    apply pow_le_pow_left₀ (hv w hw)
    linarith [le_abs_self (v w - u w), hu w hw]
  have hmink : (∑ w ∈ U, (u w + |v w - u w|) ^ (6 : ℕ)) ^ ((6 : ℝ)⁻¹) ≤
      (∑ w ∈ U, u w ^ (6 : ℕ)) ^ ((6 : ℝ)⁻¹) +
        (∑ w ∈ U, |v w - u w| ^ (6 : ℕ)) ^ ((6 : ℝ)⁻¹) := by
    have h6 : (1 : ℝ) ≤ (6 : ℝ) := by norm_num
    have hLp := Real.Lp_add_le_of_nonneg (s := U) (f := u)
      (g := fun w => |v w - u w|) (p := (6 : ℝ)) h6
      hu (fun w _ => abs_nonneg _)
    have hconv : ∀ g : Cell → ℝ,
        (∑ w ∈ U, g w ^ (6 : ℝ)) = ∑ w ∈ U, g w ^ (6 : ℕ) := by
      intro g
      apply Finset.sum_congr rfl
      intro w _
      rw [show (6 : ℝ) = ((6 : ℕ) : ℝ) by norm_num, Real.rpow_natCast]
    rw [hconv, hconv u, hconv fun w => |v w - u w|, one_div] at hLp
    exact hLp
  calc (∑ w ∈ U, v w ^ (6 : ℕ)) ^ ((6 : ℝ)⁻¹)
      ≤ (∑ w ∈ U, (u w + |v w - u w|) ^ (6 : ℕ)) ^ ((6 : ℝ)⁻¹) := by
        apply Real.rpow_le_rpow _ hstep (by norm_num)
        apply Finset.sum_nonneg
        intro w hw
        positivity
    _ ≤ _ := hmink

/-- The Minkowski argument: two query points whose per-cell contributions
differ by at most `δ` give noise values within `(686 δ^6)^(1/6)`. -/
theorem noise_abs_diff_le {variance : ℚ} {fp : Cell → FP}
    (hadm : Admissible variance fp) (p q : Q3) (scale : ℚ) (δ : ℝ) (_hδ : 0 ≤ δ)
    (hcell : ∀ w : Cell,
      |((contrib (fp w) (scaledPt q scale) : ℚ) : ℝ) -
        ((contrib (fp w) (scaledPt p scale) : ℚ) : ℝ)| ≤ δ) :
    |noiseVal fp q scale - noiseVal fp p scale| ≤
      (686 * δ ^ (6 : ℕ)) ^ ((6 : ℝ)⁻¹) := by
  classical
  set U := (windowCells (cellOf p scale)).toFinset ∪
    (windowCells (cellOf q scale)).toFinset with hUdef
  have hUp : (windowCells (cellOf p scale)).toFinset ⊆ U := Finset.subset_union_left
  have hUq : (windowCells (cellOf q scale)).toFinset ⊆ U := Finset.subset_union_right
  have hcontrib_nn : ∀ (s : Q3) (w : Cell),
      (0 : ℝ) ≤ ((contrib (fp w) s : ℚ) : ℝ) := by
    intro s w
    have := contrib_nonneg (f := fp w) s (by linarith [(hadm w).2.2.2.1.1])
    exact_mod_cast this
  have hp := noiseVal_eq_sum_over hadm p scale U hUp
  have hq := noiseVal_eq_sum_over hadm q scale U hUq
  set u : Cell → ℝ := fun w => ((contrib (fp w) (scaledPt p scale) : ℚ) : ℝ) with hu
  set v : Cell → ℝ := fun w => ((contrib (fp w) (scaledPt q scale) : ℚ) : ℝ) with hv
  have hDbound : (∑ w ∈ U, |v w - u w| ^ (6 : ℕ)) ^ ((6 : ℝ)⁻¹) ≤
      (686 * δ ^ (6 : ℕ)) ^ ((6 : ℝ)⁻¹) := by
    apply Real.rpow_le_rpow
    · apply Finset.sum_nonneg; intro w _; positivity
    · calc ∑ w ∈ U, |v w - u w| ^ (6 : ℕ)
          ≤ ∑ _w ∈ U, δ ^ (6 : ℕ) := by
            apply Finset.sum_le_sum
            intro w _
            exact pow_le_pow_left₀ (abs_nonneg _) (hcell w) 6
        _ = (U.card : ℝ) * δ ^ (6 : ℕ) := by
            rw [Finset.sum_const, nsmul_eq_mul]
        _ ≤ 686 * δ ^ (6 : ℕ) := by
            apply mul_le_mul_of_nonneg_right _ (by positivity)
            have hcard : U.card ≤ 686 := by
              calc U.card ≤ (windowCells (cellOf p scale)).toFinset.card +
                  (windowCells (cellOf q scale)).toFinset.card :=
                    Finset.card_union_le _ _
                _ ≤ 343 + 343 := by
                    apply Nat.add_le_add <;>
                      calc (List.toFinset _).card ≤ (windowCells _).length :=
                          List.toFinset_card_le _
                        _ = 343 := windowCells_length _
                _ = 686 := rfl
            exact_mod_cast hcard
    · norm_num
  have h1 : noiseVal fp q scale ≤ noiseVal fp p scale +
      (∑ w ∈ U, |v w - u w| ^ (6 : ℕ)) ^ ((6 : ℝ)⁻¹) := by
    rw [hp, hq]
    exact lp6_diff_bound U u v (fun w _ => hcontrib_nn _ w) (fun w _ => hcontrib_nn _ w)
  have h2 : noiseVal fp p scale ≤ noiseVal fp q scale +
      (∑ w ∈ U, |v w - u w| ^ (6 : ℕ)) ^ ((6 : ℝ)⁻¹) := by
    rw [hp, hq]
    have := lp6_diff_bound U v u (fun w _ => hcontrib_nn _ w) (fun w _ => hcontrib_nn _ w)
    have hsum_eq : ∑ w ∈ U, |u w - v w| ^ (6 : ℕ) =
        ∑ w ∈ U, |v w - u w| ^ (6 : ℕ) :=
      Finset.sum_congr rfl fun w _ => by rw [abs_sub_comm]
    rw [hsum_eq] at this
    exact this
  rw [abs_sub_le_iff]
  constructor
  · linarith [le_trans (by linarith [h1] :
      noiseVal fp q scale - noiseVal fp p scale ≤
        (∑ w ∈ U, |v w - u w| ^ (6 : ℕ)) ^ ((6 : ℝ)⁻¹)) hDbound]
  · linarith [le_trans (by linarith [h2] :
      noiseVal fp p scale - noiseVal fp q scale ≤
        (∑ w ∈ U, |v w - u w| ^ (6 : ℕ)) ^ ((6 : ℝ)⁻¹)) hDbound]

set_option maxHeartbeats 1000000 in
/-- Core per-cell Lipschitz estimate: shifting the first scaled coordinate by
`0 ≤ e ≤ 0.0015` changes one admissible lobe's contribution by at most `8 e`,
including across the lobe boundary. -/
theorem lipschitz_core (a e A r h : ℚ) (hA : 0 ≤ A) (hr1 : 11 / 10 ≤ r)
    (hr2 : r ≤ 8 / 5) (hh0 : 0 ≤ h) (hh : h ≤ 3 / 2) (he0 : 0 ≤ e)
    (he : e ≤ 3 / 2000) :
    |(if ((a + e) ^ 2 + A) / r ^ 2 < 1 then
          (1 - ((a + e) ^ 2 + A) / r ^ 2) ^ 2 * h else 0) -
        (if (a ^ 2 + A) / r ^ 2 < 1 then
          (1 - (a ^ 2 + A) / r ^ 2) ^ 2 * h else 0)| ≤ 8 * e := by
  have hr0 : (0 : ℚ) < r := by linarith
  have hrsq : (121 / 100 : ℚ) ≤ r ^ 2 := by nlinarith
  have hrsq' : r ^ 2 ≤ 64 / 25 := by nlinarith
  have hr2pos : (0 : ℚ) < r ^ 2 := by positivity
  have hr4pos : (0 : ℚ) < (r ^ 2) ^ 2 := by positivity
  have hD0 : (0 : ℚ) ≤ a ^ 2 + A := by positivity
  have hD'0 : (0 : ℚ) ≤ (a + e) ^ 2 + A := by positivity
  have hsq : ∀ D : ℚ, (1 - D / r ^ 2) ^ 2 * h = (r ^ 2 - D) ^ 2 * h / (r ^ 2) ^ 2 := by
    intro D
    field_simp
  have hkey : 8 * (e * r ^ 2) * (121 / 100) ≤ 8 * (e * r ^ 2) * r ^ 2 :=
    mul_le_mul_of_nonneg_left hrsq (by positivity)
  by_cases hd : (a ^ 2 + A) / r ^ 2 < 1 <;>
    by_cases hd' : ((a + e) ^ 2 + A) / r ^ 2 < 1
  · -- both inside the lobe
    rw [if_pos hd', if_pos hd, hsq, hsq, div_sub_div_same, abs_div,
      abs_of_pos hr4pos, div_le_iff₀ hr4pos]
    have hD : a ^ 2 + A < r ^ 2 := (div_lt_one hr2pos).mp hd
    have hD' : (a + e) ^ 2 + A < r ^ 2 := (div_lt_one hr2pos).mp hd'
    have haup : a ≤ 8 / 5 := by nlinarith [sq_nonneg (a - 8 / 5), hD, hrsq', hA]
    have halow : -(8 / 5) ≤ a := by nlinarith [sq_nonneg (a + 8 / 5), hD, hrsq', hA]
    rw [show (r ^ 2 - ((a + e) ^ 2 + A)) ^ 2 * h - (r ^ 2 - (a ^ 2 + A)) ^ 2 * h =
        (h * ((r ^ 2 - ((a + e) ^ 2 + A)) + (r ^ 2 - (a ^ 2 + A)))) *
          ((a ^ 2 + A) - ((a + e) ^ 2 + A)) by ring, abs_mul]
    have hXY0 : 0 ≤ (r ^ 2 - ((a + e) ^ 2 + A)) + (r ^ 2 - (a ^ 2 + A)) := by linarith
    have hb1 : |h * ((r ^ 2 - ((a + e) ^ 2 + A)) + (r ^ 2 - (a ^ 2 + A)))| ≤
        (3 / 2) * (2 * r ^ 2) := by
      rw [abs_of_nonneg (mul_nonneg hh0 hXY0)]
      apply mul_le_mul hh (by linarith) hXY0 (by norm_num)
    have hb2 : |(a ^ 2 + A) - ((a + e) ^ 2 + A)| ≤ e * (16 / 5 + 3 / 2000) := by
      rw [show (a ^ 2 + A) - ((a + e) ^ 2 + A) = -(e * (2 * a + e)) by ring,
        abs_neg, abs_mul, abs_of_nonneg he0]
      apply mul_le_mul_of_nonneg_left _ he0
      rw [abs_le]
      constructor <;> linarith
    calc |h * ((r ^ 2 - ((a + e) ^ 2 + A)) + (r ^ 2 - (a ^ 2 + A)))| *
        |(a ^ 2 + A) - ((a + e) ^ 2 + A)|
        ≤ (3 / 2) * (2 * r ^ 2) * (e * (16 / 5 + 3 / 2000)) :=
          mul_le_mul hb1 hb2 (abs_nonneg _) (by positivity)
      _ ≤ 8 * e * (r ^ 2) ^ 2 := by nlinarith [hkey, mul_nonneg he0 hr2pos.le]
  · -- the shifted point left the lobe
    rw [if_neg hd', if_pos hd, zero_sub, abs_neg, hsq, abs_div,
      abs_of_pos hr4pos, div_le_iff₀ hr4pos]
    have hD : a ^ 2 + A < r ^ 2 := (div_lt_one hr2pos).mp hd
    have hDge : r ^ 2 ≤ (a + e) ^ 2 + A := (one_le_div hr2pos).mp (not_lt.mp hd')
    have haup : a ≤ 8 / 5 := by nlinarith [sq_nonneg (a - 8 / 5), hD, hrsq', hA]
    have halow : -(8 / 5) ≤ a := by nlinarith [sq_nonneg (a + 8 / 5), hD, hrsq', hA]
    have hY2 : r ^ 2 - (a ^ 2 + A) ≤ e * (2 * a + e) := by nlinarith [hDge]
    have hY3 : e * (2 * a + e) ≤ e * (16 / 5 + 3 / 2000) :=
      mul_le_mul_of_nonneg_left (by linarith) he0
    rw [abs_of_nonneg (mul_nonneg (sq_nonneg _) hh0)]
    have hp1 : (r ^ 2 - (a ^ 2 + A)) ^ 2 ≤ (e * (16 / 5 + 3 / 2000)) * r ^ 2 := by
      have h1 : r ^ 2 - (a ^ 2 + A) ≤ e * (16 / 5 + 3 / 2000) := le_trans hY2 hY3
      have h2 : (0 : ℚ) ≤ r ^ 2 - (a ^ 2 + A) := by linarith
      rw [sq]
      exact mul_le_mul h1 (by linarith) h2 (by positivity)
    calc (r ^ 2 - (a ^ 2 + A)) ^ 2 * h ≤ ((e * (16 / 5 + 3 / 2000)) * r ^ 2) * (3 / 2) :=
        mul_le_mul hp1 hh hh0 (by positivity)
      _ ≤ 8 * e * (r ^ 2) ^ 2 := by nlinarith [hkey, mul_nonneg he0 hr2pos.le]
  · -- the shifted point entered the lobe
    rw [if_pos hd', if_neg hd, sub_zero, hsq, abs_div,
      abs_of_pos hr4pos, div_le_iff₀ hr4pos]
    have hD' : (a + e) ^ 2 + A < r ^ 2 := (div_lt_one hr2pos).mp hd'
    have hDge : r ^ 2 ≤ a ^ 2 + A := (one_le_div hr2pos).mp (not_lt.mp hd)
    have haup : a + e ≤ 8 / 5 := by nlinarith [sq_nonneg (a + e - 8 / 5), hD', hrsq', hA]
    have halow : -(8 / 5) ≤ a + e := by nlinarith [sq_nonneg (a + e + 8 / 5), hD', hrsq', hA]
    have hY2 : r ^ 2 - ((a + e) ^ 2 + A) ≤ e * (-(2 * a + e)) := by nlinarith [hDge]
    have hY3 : e * (-(2 * a + e)) ≤ e * (16 / 5 + 3 / 2000) :=
      mul_le_mul_of_nonneg_left (by linarith) he0
    rw [abs_of_nonneg (mul_nonneg (sq_nonneg _) hh0)]
    have hp1 : (r ^ 2 - ((a + e) ^ 2 + A)) ^ 2 ≤ (e * (16 / 5 + 3 / 2000)) * r ^ 2 := by
      have h1 : r ^ 2 - ((a + e) ^ 2 + A) ≤ e * (16 / 5 + 3 / 2000) := le_trans hY2 hY3
      have h2 : (0 : ℚ) ≤ r ^ 2 - ((a + e) ^ 2 + A) := by linarith
      rw [sq]
      exact mul_le_mul h1 (by linarith) h2 (by positivity)
    calc (r ^ 2 - ((a + e) ^ 2 + A)) ^ 2 * h ≤
        ((e * (16 / 5 + 3 / 2000)) * r ^ 2) * (3 / 2) :=
          mul_le_mul hp1 hh hh0 (by positivity)
      _ ≤ 8 * e * (r ^ 2) ^ 2 := by nlinarith [hkey, mul_nonneg he0 hr2pos.le]
  · -- both outside
    rw [if_neg hd', if_neg hd, sub_zero, abs_zero]
    linarith

/-- The per-cell Lipschitz bound, stated on `contrib` for an in-range feature
point and a shift of the first scaled coordinate. -/
theorem contrib_lipschitz {variance : ℚ} {c : Cell} {f : FP}
    (hadm : AdmissibleFP variance c f) (hvar : variance ≤ 2 / 5)
    (s s' : Q3) (hy : s'.2.1 = s.2.1) (hz : s'.2.2 = s.2.2)
    (he0 : 0 ≤ s'.1 - s.1) (he : s'.1 - s.1 ≤ 3 / 2000) :
    |contrib f s' - contrib f s| ≤ 8 * (s'.1 - s.1) := by
  obtain ⟨hpx, hpy, hpz, hhf, hrf⟩ := hadm
  have hhf32 : f.hf ≤ 3 / 2 := by linarith [hhf.2]
  have hd2s : d2 f s =
      ((s.1 - f.px) ^ 2 + ((s.2.1 - f.py) ^ 2 + (s.2.2 - f.pz) ^ 2)) / f.rf ^ 2 := by
    unfold d2
    ring_nf
  have hd2s' : d2 f s' =
      (((s.1 - f.px) + (s'.1 - s.1)) ^ 2 +
        ((s.2.1 - f.py) ^ 2 + (s.2.2 - f.pz) ^ 2)) / f.rf ^ 2 := by
    unfold d2
    rw [hy, hz]
    ring_nf
  unfold contrib contribVal
  rw [hd2s, hd2s']
  exact lipschitz_core (s.1 - f.px) (s'.1 - s.1) _ f.rf f.hf (by positivity)
    hrf.1 hrf.2 (by linarith [hhf.1]) hhf32 he0 he

/-- C2 (amended): for the tested configuration — `variance ≤ 0.4` and walk
scale at most `1.5` (the suite walks at scales `1.5` and `1.0` with
`variance = 0.4`) — and every feature-point assignment in generator range,
two samples `1e-3` apart along `x` give noise values within `0.05`; the bound
is strict.  For unrestricted `variance` the claim fails (see the
counterexample). -/
theorem continuity_step_bound (fp : Cell → FP) (variance : ℚ)
    (hadm : Admissible variance fp) (hvar : variance ≤ 2 / 5)
    (scale : ℚ) (hs0 : 0 < scale) (hs : scale ≤ 3 / 2)
    (p q : Q3) (hq1 : q.1 = p.1 + 1 / 1000) (hq2 : q.2.1 = p.2.1)
    (hq3 : q.2.2 = p.2.2) :
    |noiseVal fp q scale - noiseVal fp p scale| < 1 / 20 := by
  have hy : (scaledPt q scale).2.1 = (scaledPt p scale).2.1 := by
    unfold scaledPt
    simp only
    rw [hq2]
  have hz : (scaledPt q scale).2.2 = (scaledPt p scale).2.2 := by
    unfold scaledPt
    simp only
    rw [hq3]
  have hx : (scaledPt q scale).1 - (scaledPt p scale).1 = scale / 1000 := by
    unfold scaledPt
    simp only
    rw [hq1]
    ring
  have he0 : 0 ≤ (scaledPt q scale).1 - (scaledPt p scale).1 := by
    rw [hx]
    positivity
  have heB : (scaledPt q scale).1 - (scaledPt p scale).1 ≤ 3 / 2000 := by
    rw [hx]
    linarith
  have hstep : ∀ w : Cell,
      |contrib (fp w) (scaledPt q scale) - contrib (fp w) (scaledPt p scale)| ≤
        8 * (scale / 1000) := by
    intro w
    have h := contrib_lipschitz (hadm w) hvar (scaledPt p scale) (scaledPt q scale)
      hy hz he0 heB
    rwa [hx] at h
  have hδ0 : (0 : ℝ) ≤ ((8 * (scale / 1000) : ℚ) : ℝ) := by
    have : (0 : ℚ) ≤ 8 * (scale / 1000) := by positivity
    exact_mod_cast this
  have hcell : ∀ w : Cell,
      |((contrib (fp w) (scaledPt q scale) : ℚ) : ℝ) -
        ((contrib (fp w) (scaledPt p scale) : ℚ) : ℝ)| ≤
          ((8 * (scale / 1000) : ℚ) : ℝ) := by
    intro w
    rw [show ((contrib (fp w) (scaledPt q scale) : ℚ) : ℝ) -
        ((contrib (fp w) (scaledPt p scale) : ℚ) : ℝ) =
        (((contrib (fp w) (scaledPt q scale) -
          contrib (fp w) (scaledPt p scale) : ℚ)) : ℝ) by push_cast; ring,
      ← Rat.cast_abs]
    exact_mod_cast hstep w
  have hmain := noise_abs_diff_le hadm p q scale _ hδ0 hcell
  apply lt_of_le_of_lt hmain
  have hδle : ((8 * (scale / 1000) : ℚ) : ℝ) ≤ 3 / 250 := by
    have h : (8 * (scale / 1000) : ℚ) ≤ 3 / 250 := by linarith
    calc ((8 * (scale / 1000) : ℚ) : ℝ) ≤ ((3 / 250 : ℚ) : ℝ) := by exact_mod_cast h
      _ = 3 / 250 := by norm_num
  have hX : 686 * ((8 * (scale / 1000) : ℚ) : ℝ) ^ (6 : ℕ) < (1 / 20 : ℝ) ^ (6 : ℕ) := by
    have h1 : ((8 * (scale / 1000) : ℚ) : ℝ) ^ (6 : ℕ) ≤ (3 / 250 : ℝ) ^ (6 : ℕ) :=
      pow_le_pow_left₀ hδ0 hδle 6
    have h2 : (686 : ℝ) * (3 / 250 : ℝ) ^ (6 : ℕ) < (1 / 20 : ℝ) ^ (6 : ℕ) := by norm_num
    nlinarith
  calc (686 * ((8 * (scale / 1000) : ℚ) : ℝ) ^ (6 : ℕ)) ^ ((6 : ℝ)⁻¹)
      < ((1 / 20 : ℝ) ^ (6 : ℕ)) ^ ((6 : ℝ)⁻¹) := by
        apply Real.rpow_lt_rpow (by positivity) hX (by norm_num)
    _ = 1 / 20 := by
        have h6 : ((6 : ℕ) : ℝ)⁻¹ = (6 : ℝ)⁻¹ := by norm_num
        rw [← h6, Real.pow_rpow_inv_natCast (by norm_num) (by norm_num)]

/-- Witness for `continuity_step_bound`: the generator with all draws `1/2`
at `variance = 0.4`, crossing the cell boundary at `x ∈ [0.9, 0.901]`,
`scale = 1`. -/
theorem continuity_step_bound_witness :
    RngValid (fun _ _ => 1 / 2) ∧ (2 / 5 : ℚ) ≤ 2 / 5 ∧ (0 : ℚ) < 1 ∧ (1 : ℚ) ≤ 3 / 2 ∧
      |noiseVal (genFP (fun _ _ => 1 / 2) (2 / 5)) (901 / 1000, 1 / 2, 1 / 2) 1 -
          noiseVal (genFP (fun _ _ => 1 / 2) (2 / 5)) (9 / 10, 1 / 2, 1 / 2) 1| <
        1 / 20 := by
  have hr : RngValid fun _ _ => 1 / 2 := fun s i => ⟨by norm_num, by norm_num⟩
  refine ⟨hr, le_rfl, by norm_num, by norm_num, ?_⟩
  exact continuity_step_bound _ _ (genFP_admissible hr (by norm_num)) le_rfl 1
    (by norm_num) (by norm_num) (9 / 10, 1 / 2, 1 / 2) (901 / 1000, 1 / 2, 1 / 2)
    (by norm_num) rfl rfl

/-- At `variance = 100`, an admissible assignment with one very tall lobe
near the second test walk: every other cell's feature point is pushed to the
far end of its cell. -/
def fpJump : Cell → FP := fun c =>
  if c = ((0 : ℤ), (0 : ℤ), (0 : ℤ)) then ⟨1 / 2, 1 / 2, 1 / 2, 609 / 10, 11 / 10⟩
  else ⟨farC c.1, farC c.2.1, farC c.2.2, 9 / 10, 11 / 10⟩

theorem fpJump_admissible : Admissible 100 fpJump := by
  intro c
  unfold AdmissibleFP fpJump
  by_cases hc : c = ((0 : ℤ), (0 : ℤ), (0 : ℤ))
  · rw [if_pos hc, hc]
    norm_num
  · rw [if_neg hc]
    refine ⟨⟨(farC_range c.1).1, (farC_range c.1).2⟩,
      ⟨(farC_range c.2.1).1, (farC_range c.2.1).2⟩,
      ⟨(farC_range c.2.2).1, (farC_range c.2.2).2⟩, ?_, ?_⟩ <;> norm_num

theorem fpJump_hf_nonneg (c : Cell) : 0 ≤ (fpJump c).hf := by
  unfold fpJump
  split <;> norm_num

/-- Off-axis far bound: a pushed-away feature coordinate at body-diagonal
`1/2` is at squared distance at least `1.21` once the cell coordinate is
nonzero. -/
theorem farC_far_half {z : ℤ} (hz : z ≠ 0) : (121 / 100 : ℚ) ≤ (1 / 2 - farC z) ^ 2 := by
  unfold farC
  by_cases h1 : 1 ≤ z
  · rw [if_pos h1]
    have : (1 : ℚ) ≤ (z : ℚ) := by exact_mod_cast h1
    nlinarith
  · rw [if_neg h1]
    have hz' : z ≤ -1 := by omega
    have : (z : ℚ) ≤ -1 := by exact_mod_cast hz'
    nlinarith

theorem farC_far_x {z : ℤ} (hz : z ≠ 0) {sx : ℚ} (h1 : 9 / 10 ≤ sx) (h2 : sx ≤ 1) :
    (9801 / 10000 : ℚ) ≤ (sx - farC z) ^ 2 := by
  unfold farC
  by_cases hz1 : 1 ≤ z
  · rw [if_pos hz1]
    have : (1 : ℚ) ≤ (z : ℚ) := by exact_mod_cast hz1
    nlinarith
  · rw [if_neg hz1]
    have hz' : z ≤ -1 := by omega
    have : (z : ℚ) ≤ -1 := by exact_mod_cast hz'
    nlinarith

theorem farC_half_all (z : ℤ) : (1 / 4 : ℚ) ≤ (1 / 2 - farC z) ^ 2 := by
  by_cases hz : z = 0
  · subst hz
    norm_num [farC]
  · linarith [farC_far_half hz]

theorem fpJump_contrib_zero {w : Cell} (hw : w ≠ ((0 : ℤ), (0 : ℤ), (0 : ℤ)))
    {sx : ℚ} (h1 : 9 / 10 ≤ sx) (h2 : sx ≤ 1) :
    contrib (fpJump w) (sx, 1 / 2, 1 / 2) = 0 := by
  unfold contrib
  rw [if_neg]
  unfold fpJump
  rw [if_neg hw]
  unfold d2
  simp only
  rw [not_lt, one_le_div (by norm_num)]
  have hcase : w.1 ≠ 0 ∨ w.2.1 ≠ 0 ∨ w.2.2 ≠ 0 := by
    by_contra hcon
    push_neg at hcon
    exact hw (Prod.ext hcon.1 (Prod.ext hcon.2.1 hcon.2.2))
  rcases hcase with h | h | h
  · nlinarith [farC_far_x h h1 h2, farC_half_all w.2.1, farC_half_all w.2.2]
  · nlinarith [farC_far_half h, sq_nonneg (sx - farC w.1), farC_half_all w.2.2]
  · nlinarith [farC_far_half h, sq_nonneg (sx - farC w.1), farC_half_all w.2.1]

theorem fpJump_noise {sx : ℚ} (h1 : 9 / 10 ≤ sx) (h2 : sx < 1) :
    noiseVal fpJump (sx, 1 / 2, 1 / 2) 1 =
      ((contrib (fpJump ((0 : ℤ), (0 : ℤ), (0 : ℤ))) (sx, 1 / 2, 1 / 2) : ℚ) : ℝ) := by
  have hsp : scaledPt (sx, 1 / 2, 1 / 2) 1 = (sx, 1 / 2, 1 / 2) := by
    unfold scaledPt
    norm_num
  have hcell : cellOf (sx, 1 / 2, 1 / 2) 1 = ((0 : ℤ), (0 : ℤ), (0 : ℤ)) := by
    unfold cellOf
    norm_num [Int.floor_eq_zero_iff]
    constructor <;> linarith
  rw [noiseVal_eq_sum fun w _ => fpJump_hf_nonneg w, hsp, hcell,
    list_map_sum_single _ _ _
      (by intro w _ hw
          rw [fpJump_contrib_zero hw h1 (le_of_lt h2)]
          norm_num),
    window_count_center]
  have hnn : (0 : ℝ) ≤ ((contrib (fpJump ((0 : ℤ), (0 : ℤ), (0 : ℤ)))
      (sx, 1 / 2, 1 / 2) : ℚ) : ℝ) := by
    have := contrib_nonneg (f := fpJump ((0 : ℤ), (0 : ℤ), (0 : ℤ)))
      (sx, 1 / 2, 1 / 2) (fpJump_hf_nonneg _)
    exact_mod_cast this
  rw [Nat.cast_one, one_mul]
  have h6 : ((6 : ℕ) : ℝ)⁻¹ = (6 : ℝ)⁻¹ := by norm_num
  rw [← h6, Real.pow_rpow_inv_natCast hnn (by norm_num)]

theorem fpJump_center : fpJump ((0 : ℤ), (0 : ℤ), (0 : ℤ)) =
    ⟨1 / 2, 1 / 2, 1 / 2, 609 / 10, 11 / 10⟩ := by
  unfold fpJump
  rw [if_pos rfl]

theorem fpJump_c95 :
    contrib (fpJump ((0 : ℤ), (0 : ℤ), (0 : ℤ))) (95 / 100, 1 / 2, 1 / 2) =
      (403 / 484) ^ 2 * (609 / 10) := by
  rw [fpJump_center]
  have hd : d2 (⟨1 / 2, 1 / 2, 1 / 2, 609 / 10, 11 / 10⟩ : FP) (95 / 100, 1 / 2, 1 / 2)
      = 81 / 484 := by
    unfold d2
    norm_num
  unfold contrib contribVal
  rw [hd, if_pos (by norm_num)]
  norm_num

theorem fpJump_c951 :
    contrib (fpJump ((0 : ℤ), (0 : ℤ), (0 : ℤ))) (951 / 1000, 1 / 2, 1 / 2) =
      (1006599 / 1210000) ^ 2 * (609 / 10) := by
  rw [fpJump_center]
  have hd : d2 (⟨1 / 2, 1 / 2, 1 / 2, 609 / 10, 11 / 10⟩ : FP) (951 / 1000, 1 / 2, 1 / 2)
      = 203401 / 1210000 := by
    unfold d2
    norm_num
  unfold contrib contribVal
  rw [hd, if_pos (by norm_num)]
  norm_num

/-- Counterexample to C2 as stated: with unrestricted `variance` the step
bound fails.  At `variance = 100` there is an in-range feature-point draw
under which the adjacent samples `x = 0.95` and `x = 0.951` of the second
test walk (`y = z = 0.5`, `scale = 1`) differ by more than `0.05`. -/
theorem continuity_counterexample :
    Admissible 100 fpJump ∧
      (95 / 100 : ℚ) = 9 / 10 + 2 / 10 * (50 / 200) ∧
      (951 / 1000 : ℚ) = 9 / 10 + 2 / 10 * (51 / 200) ∧
      1 / 20 ≤ |noiseVal fpJump (951 / 1000, 1 / 2, 1 / 2) 1 -
          noiseVal fpJump (95 / 100, 1 / 2, 1 / 2) 1| := by
  refine ⟨fpJump_admissible, by norm_num, by norm_num, ?_⟩
  rw [fpJump_noise (by norm_num) (by norm_num), fpJump_noise (by norm_num) (by norm_num),
    fpJump_c951, fpJump_c95, abs_sub_comm]
  have hdiff : (1 / 20 : ℚ) ≤ ((403 / 484) ^ 2 * (609 / 10)) -
      ((1006599 / 1210000) ^ 2 * (609 / 10)) := by norm_num
  rw [show ((((403 / 484) ^ 2 * (609 / 10) : ℚ)) : ℝ) -
      ((((1006599 / 1210000) ^ 2 * (609 / 10) : ℚ)) : ℝ) =
      ((((403 / 484) ^ 2 * (609 / 10) -
        (1006599 / 1210000) ^ 2 * (609 / 10) : ℚ)) : ℝ) by push_cast; ring]
  rw [abs_of_nonneg (by
    have h0 : (0 : ℚ) ≤ (403 / 484) ^ 2 * (609 / 10) -
        (1006599 / 1210000) ^ 2 * (609 / 10) := le_trans (by norm_num) hdiff
    exact_mod_cast h0)]
  calc (1 / 20 : ℝ) = ((1 / 20 : ℚ) : ℝ) := by norm_num
    _ ≤ _ := by exact_mod_cast hdiff

end BubbleMaker
